import Mathlib

/-!
Verification development for the house-assignment optimizer
(`src/solver.py`, with the overlapping parts of
`src/house_assignment_solver.py` and `constants/bot_constants.py`).

The Python code is shallowly embedded as executable Lean functions.
Entities are strings; the pseudo-random generator (Python's module-level
`random`) is modelled by an explicit oracle `Oracle : Nat → List Entity →
List Entity` together with a call counter: the k-th call of
`random.shuffle l` is modelled as `oracle k l`.  Every ambient behaviour
of the global generator corresponds to one such oracle, and the
properties below quantify over all oracles (restricted to permutations
where a claim needs the shuffles to be genuine shuffles).
-/

namespace HouseSolver

abbrev Entity := String

abbrev Rels := List (Entity × List Entity)

abbrev Assign := List (List Entity)

abbrev Oracle := Nat → List Entity → List Entity

/-- Membership in the bidirectional connection graph built by
`HouseAssignmentSolver.__init__` (solver.py lines 27-33): `b` is a
neighbour of `a` iff some declaration `(p, conns)` has `p = a ∧ b ∈ conns`
or `p = b ∧ a ∈ conns`.  The Python `defaultdict(set)` collapses
duplicates, which a Bool-valued relation does inherently. -/
def inGraph (r : Rels) (a b : Entity) : Bool :=
  r.any (fun pc => (pc.1 == a && pc.2.contains b) || (pc.1 == b && pc.2.contains a))

/-- Membership in `self.people` (solver.py lines 28-31): every declaration
key and every mentioned connection. -/
def isPerson (r : Rels) (x : Entity) : Bool :=
  r.any (fun pc => pc.1 == x || pc.2.contains x)

/-- `calculate_connections_in_house` (solver.py lines 35-43): for each
index `i`, count the later indices `j` with `list[j] ∈ graph[list[i]]`. -/
def connectionsInHouse (r : Rels) : List Entity → Nat
  | [] => 0
  | p :: rest => rest.countP (fun q => inGraph r p q) + connectionsInHouse r rest

/-- `_calculate_total_score` (solver.py lines 491-496). -/
def totalScore (r : Rels) (a : Assign) : Nat :=
  (a.map (connectionsInHouse r)).sum

/-- `calculate_person_priority` (solver.py lines 45-51): neighbours of
`p` among the pool, excluding `p` itself, counted with pool multiplicity. -/
def personPriority (r : Rels) (p : Entity) (pool : List Entity) : Nat :=
  pool.countP (fun o' => decide (o' ≠ p) && inGraph r p o')

/-- `_calculate_cluster_bonus` (solver.py lines 182-200): among the pool
members connected to `p`, count mutually adjacent pairs; the pair loop is
the same shape as `calculate_connections_in_house`. -/
def clusterBonus (r : Rels) (p : Entity) (pool : List Entity) : Nat :=
  if isPerson r p then
    connectionsInHouse r (pool.filter (fun o' => decide (o' ≠ p) && inGraph r p o'))
  else 0

/-- The candidate filter of the non-overflow path of `optimize_assignment`
(solver.py lines 215-219): keep the names known to the registry. -/
def filterValid (r : Rels) (people : List Entity) : List Entity :=
  people.filter (fun p => isPerson r p)

/-- Solver state: `house_capacities` and `relationships` as set up by
`HouseAssignmentSolver.__init__`. -/
structure Ctx where
  caps : List Nat
  rels : Rels

/-- Read house `i` of an assignment (Python `assignment[i]`; out of range
only on paths the Python code cannot reach, where we default to `[]`). -/
def house (a : Assign) (i : Nat) : List Entity := a.getD i []

/-- Write house `i` of an assignment (in-place mutation in Python). -/
def setH (a : Assign) (i : Nat) (l : List Entity) : Assign := a.set i l

/-- `HOUSE_CAPACITIES` from `constants/bot_constants.py`. -/
def HOUSE_CAPACITIES : List Nat := [3, 6, 6]

/-- `RELATIONSHIPS` from `constants/bot_constants.py`. -/
def RELATIONSHIPS : Rels :=
  [ ("Imperial", ["Jingke", "Hanfei", "Han Wu"])
  , ("Weiqing", ["Qubing", "Han Wu"])
  , ("Yuhuan", ["Libai", "Longji"])
  , ("Dufu", ["Libai"])
  , ("Qubing", ["Weiqing", "Han Wu"])
  , ("Zhen Ji", ["Zihuan"])
  , ("Han Wu", ["Weiqing", "Shimin", "Zifu", "Imperial", "Qubing"])
  , ("Zihuan", ["Zhen Ji", "Zijian"])
  , ("Jikang", ["Ruanji"])
  , ("Jingke", ["Imperial", "Jianli"])
  , ("Jianli", ["Jingke", "Longji"])
  , ("Wan\x27er", ["Empress", "Taiping"])
  , ("Ruanji", ["Jikang"])
  , ("Zhangliang", ["Liubang"])
  , ("Zhaojun", ["Mulan"])
  , ("Empress", ["Wan\x27er", "Taiping", "Luzhi"])
  , ("Taiping", ["Empress", "Wan\x27er"])
  , ("Longji", ["Yuhuan", "Jianli"])
  , ("Libai", ["Yuhuan", "Dufu"])
  , ("Shimin", ["Han Wu", "Xizhi"])
  , ("Zijian", ["Zihuan"])
  , ("Xiangyu", ["Consort Yu"])
  , ("Consort Yu", ["Xiangyu"])
  , ("Zifu", ["Han Wu"])
  , ("Xizhi", ["Shimin"])
  , ("Luzhi", ["Empress", "Liubang"])
  , ("Liubang", ["Zhangliang", "Luzhi"])
  , ("Hanfei", ["Imperial"])
  , ("Mulan", ["Zhaojun"]) ]

/-- `HouseAssignmentSolver.__init__` argument defaulting (solver.py
lines 22-23): `house_capacities or HOUSE_CAPACITIES` replaces both `None`
and the falsy empty list with the module defaults, and likewise for
`relationships`. -/
def mkCtx (caps : Option (List Nat)) (rels : Option Rels) : Ctx :=
  { caps := match caps with
      | none => HOUSE_CAPACITIES
      | some c => if c.isEmpty then HOUSE_CAPACITIES else c
  , rels := match rels with
      | none => RELATIONSHIPS
      | some r => if r.isEmpty then RELATIONSHIPS else r }

/-- Stable insertion keeping every element `y` with `le y x` in front of
the inserted `x`; used to model Python's stable `list.sort`. -/
def insBy (le : α → α → Bool) (x : α) : List α → List α
  | [] => [x]
  | y :: ys => if le y x then y :: insBy le x ys else x :: y :: ys

/-- Stable sort by repeated insertion, processing input left to right, so
that elements equal under `le` keep their input order exactly as Python's
`list.sort` does. -/
def sortPy (le : α → α → Bool) (l : List α) : List α :=
  l.foldl (fun acc x => insBy le x acc) []

/-- The inner `while current_house < 3` of `_fill_first_assignment`
(solver.py lines 288-296): starting from `ch`, find the first house below
index 3 with room.  The fuel of 3 covers every probe the Python loop can
make; when it runs out the next probe would fail `ch < 3` anyway. -/
def findHouse (caps : List Nat) (a : Assign) : Nat → Nat → Option Nat
  | 0, _ => none
  | fuel + 1, ch =>
    if ch < 3 then
      if (house a ch).length < caps.getD ch 0 then some ch
      else findHouse caps a fuel (ch + 1)
    else none

/-- The `for person in people_copy` loop of `_fill_first_assignment`:
place each person into the current house if it has room, advancing the
house index; when every house is full the outer loop breaks. -/
def fillFirstLoop (caps : List Nat) : List Entity → Nat → Assign → Assign
  | [], _, a => a
  | p :: ps, ch, a =>
    match findHouse caps a 3 ch with
    | some h => fillFirstLoop caps ps h (setH a h (house a h ++ [p]))
    | none => a

/-- `_fill_first_assignment` (solver.py lines 280-298): shuffle, then pack
houses in order.  Consumes one oracle call for `random.shuffle`. -/
def fillFirst (ctx : Ctx) (o : Oracle) (n : Nat) (people : List Entity) :
    Assign × Nat :=
  (fillFirstLoop ctx.caps (o n people) 0 [[], [], []], n + 1)

/-- Marginal connection gain of adding `p` to house `i`
(solver.py lines 323-330), as the Python `new - current` integer. -/
def gainAt (r : Rels) (a : Assign) (p : Entity) (i : Nat) : Int :=
  (connectionsInHouse r (house a i ++ [p]) : Int) - connectionsInHouse r (house a i)

/-- One house probe of the selection loop of `_smart_assignment_strategy`
(solver.py lines 320-334): houses at capacity are skipped, and the best
house/gain pair is replaced only on strictly larger gain. -/
def smartPickStep (ctx : Ctx) (a : Assign) (p : Entity)
    (acc : Option Nat × Int) (i : Nat) : Option Nat × Int :=
  if (house a i).length < ctx.caps.getD i 0 then
    if gainAt ctx.rels a p i > acc.2 then (some i, gainAt ctx.rels a p i)
    else acc
  else acc

/-- The house-selection loop of `_smart_assignment_strategy`
(solver.py lines 316-334): over houses 0,1,2 with spare capacity, keep the
first house whose gain strictly exceeds the best so far (initially -1). -/
def smartPick (ctx : Ctx) (a : Assign) (p : Entity) : Option Nat × Int :=
  [0, 1, 2].foldl (smartPickStep ctx a p) (none, -1)

/-- The fallback of `_smart_assignment_strategy` (solver.py lines
337-343): sort `(space, index)` pairs descending (Python tuple order) and
take the first with positive space. -/
def smartFallback (ctx : Ctx) (a : Assign) : Option Nat :=
  let spaces : List (Int × Nat) :=
    [0, 1, 2].map (fun i => ((ctx.caps.getD i 0 : Int) - (house a i).length, i))
  let sorted := sortPy
    (fun y x => decide (x.1 < y.1 || (x.1 == y.1 && x.2 ≤ y.2))) spaces
  (sorted.find? (fun si => si.1 > 0)).map (fun si => si.2)

/-- One person of `_smart_assignment_strategy`: skip unknown names, place
at the picked house, otherwise at the fallback house, otherwise drop. -/
def smartStep (ctx : Ctx) (a : Assign) (p : Entity) : Assign :=
  if isPerson ctx.rels p then
    match (smartPick ctx a p).1 with
    | some i => setH a i (house a i ++ [p])
    | none =>
      match smartFallback ctx a with
      | some i => setH a i (house a i ++ [p])
      | none => a
  else a

/-- Body of `_smart_assignment_strategy` after the shuffle. -/
def smartCore (ctx : Ctx) (people : List Entity) : Assign :=
  people.foldl (smartStep ctx) [[], [], []]

/-- `_smart_assignment_strategy` (solver.py lines 305-349); consumes one
oracle call for `random.shuffle`. -/
def smartAssignment (ctx : Ctx) (o : Oracle) (n : Nat) (people : List Entity) :
    Assign × Nat :=
  (smartCore ctx (o n people), n + 1)

/-- Seed selection of `_cluster_assignment_strategy` (solver.py lines
356-365): the first known person whose pool priority strictly exceeds the
running maximum, which starts at 0 (so an all-isolated pool has no seed). -/
def clusterSeedStep (r : Rels) (pool : List Entity)
    (acc : Nat × Option Entity) (p : Entity) : Nat × Option Entity :=
  if isPerson r p then
    if personPriority r p pool > acc.1 then (personPriority r p pool, some p)
    else acc
  else acc

def clusterSeed (r : Rels) (people : List Entity) : Option Entity :=
  (people.foldl (clusterSeedStep r people) (0, (none : Option Entity))).2

/-- Best next person for a house in `_cluster_assignment_strategy`
(solver.py lines 377-396): the first known person maximising the count of
current house members it connects to (strictly-better updates, start -1);
if no known person exists, `remaining[0]`. -/
def clusterPickStep (r : Rels) (houseL : List Entity)
    (acc : Int × Option Entity) (p : Entity) : Int × Option Entity :=
  if isPerson r p then
    if (houseL.countP (fun m => inGraph r m p) : Int) > acc.1 then
      (houseL.countP (fun m => inGraph r m p), some p)
    else acc
  else acc

def clusterPickBest (r : Rels) (houseL : List Entity) (remaining : List Entity) :
    Option Entity :=
  match (remaining.foldl (clusterPickStep r houseL)
      ((-1 : Int), (none : Option Entity))).2 with
  | some p => some p
  | none => remaining.head?

/-- Name that Python treats as falsy in `if best_person:`. -/
def emptyName : Entity := ""

/-- The `while len(assignment[i]) < capacity and remaining_people` loop of
`_cluster_assignment_strategy` (solver.py lines 376-400).  Each iteration
removes the chosen person from `remaining`, so `remaining.length` bounds
the iterations; a chosen empty-string name is falsy in Python, which then
loops forever — the model stops there instead (no theorem depends on that
unreachable-by-the-bot corner). -/
def clusterFillHouse (ctx : Ctx) (i : Nat) :
    Nat → Assign → List Entity → Assign × List Entity
  | 0, a, rem => (a, rem)
  | fuel + 1, a, rem =>
    if (house a i).length < ctx.caps.getD i 0 && !rem.isEmpty then
      match clusterPickBest ctx.rels (house a i) rem with
      | none => (a, rem)
      | some p =>
        if p = emptyName then (a, rem)
        else clusterFillHouse ctx i fuel (setH a i (house a i ++ [p])) (rem.erase p)
    else (a, rem)

/-- One `for house_idx` iteration of `_cluster_assignment_strategy`
(solver.py lines 375-400), threading the assignment and the remaining
pool. -/
def fillStage (ctx : Ctx) (i : Nat) (pr : Assign × List Entity) :
    Assign × List Entity :=
  clusterFillHouse ctx i pr.2.length pr.1 pr.2

/-- `_cluster_assignment_strategy` (solver.py lines 351-402): seed house 0
with the highest-priority person (appended without a capacity check!),
then fill houses 0,1,2 greedily.  Falls back to `_fill_first_assignment`
when no seed exists; only that path consumes an oracle call. -/
def clusterAssignment (ctx : Ctx) (o : Oracle) (n : Nat) (people : List Entity) :
    Assign × Nat :=
  match clusterSeed ctx.rels people with
  | none => fillFirst ctx o n people
  | some s =>
    ((fillStage ctx 2 (fillStage ctx 1 (fillStage ctx 0
        ([[s], [], []], people.erase s)))).1, n)

/-- A candidate move of `_local_search` (solver.py lines 441, 467). -/
inductive LSMove where
  | swap (i j : Nat) (x y : Entity)
  | move (i j : Nat) (p : Entity)
deriving DecidableEq

/-- Scan state of one `_local_search` pass: the working assignment (whose
house orders Python mutates while scanning), the best move so far, and
`best_new_score` (initialised to the current score). -/
structure ScanSt where
  assign : Assign
  best : Option LSMove
  bestScore : Nat
deriving DecidableEq

/-- Applying a recorded move (solver.py lines 474-487).  For a swap,
`a[i].remove(x); a[j].remove(y); a[i].append(y); a[j].append(x)`; for a
move, `a[i].remove(p); a[j].append(p)`.  Houses are grouped per index,
which matches the sequential Python statements because the code only ever
applies moves with `i ≠ j`. -/
def applyMove (a : Assign) : LSMove → Assign
  | .swap i j x y =>
    setH (setH a i ((house a i).erase x ++ [y])) j ((house a j).erase y ++ [x])
  | .move i j p =>
    setH (setH a i ((house a i).erase p)) j (house a j ++ [p])

/-- Python's `for x in lst:` over a live, mutated list: an internal index
`k` walks the list as it currently stands in the state.  The bodies used
here always preserve list lengths, so `n` set to the list length at entry
makes this exactly the CPython iteration (including the skip/revisit
behaviour caused by `remove`/`append` inside the body). -/
def pyForN (get : σ → List α) (body : α → σ → σ) : Nat → Nat → σ → σ
  | 0, _, st => st
  | fuel + 1, k, st =>
    match (get st)[k]? with
    | none => st
    | some x => pyForN get body fuel (k + 1) (body x st)

/-- The net effect of evaluate-then-undo on the assignment during a swap
probe: the swap (`applyMove`) followed by the inverse `remove`/`append`
sequence of solver.py lines 443-447.  The first-occurrence semantics of
`list.remove` is `List.erase`. -/
def swapUndo (a : Assign) (i j : Nat) (x y : Entity) : Assign :=
  let a1 := applyMove a (.swap i j x y)
  setH (setH a1 i ((house a1 i).erase y ++ [x])) j ((house a1 j).erase x ++ [y])

/-- Body of the innermost swap evaluation (solver.py lines 427-447): if
the (always-true-on-valid-states) capacity test passes, perform the swap,
score it, keep it when strictly better than `best_new_score`, and undo. -/
def swapEvalBody (ctx : Ctx) (i j : Nat) (x y : Entity) (st : ScanSt) : ScanSt :=
  if (house st.assign i).length ≤ ctx.caps.getD i 0
      && (house st.assign j).length ≤ ctx.caps.getD j 0 then
    { assign := swapUndo st.assign i j x y
    , best :=
        if totalScore ctx.rels (applyMove st.assign (.swap i j x y)) > st.bestScore
        then some (LSMove.swap i j x y) else st.best
    , bestScore :=
        if totalScore ctx.rels (applyMove st.assign (.swap i j x y)) > st.bestScore
        then totalScore ctx.rels (applyMove st.assign (.swap i j x y))
        else st.bestScore }
  else st

/-- The two nested `for person_i / for person_j` loops of the swap scan,
for one house pair `(i, j)` (solver.py lines 425-447). -/
def swapScanPair (ctx : Ctx) (st : ScanSt) (i j : Nat) : ScanSt :=
  if !(house st.assign i).isEmpty && !(house st.assign j).isEmpty then
    pyForN (fun st => house st.assign i)
      (fun x st =>
        pyForN (fun st => house st.assign j)
          (fun y st => swapEvalBody ctx i j x y st)
          (house st.assign j).length 0 st)
      (house st.assign i).length 0 st
  else st

/-- The net effect of evaluate-then-undo on the assignment during a move
probe: the move (`applyMove`) followed by the inverse `remove`/`append`
sequence of solver.py lines 469-471 (the undo's `a[j].remove(p)` takes the
first occurrence of `p` in house `j`). -/
def moveUndo (a : Assign) (i j : Nat) (p : Entity) : Assign :=
  let a1 := applyMove a (.move i j p)
  setH (setH a1 j ((house a1 j).erase p)) i (house a1 i ++ [p])

/-- Body of the move evaluation (solver.py lines 458-471): move `p` from
house `i` to house `j`, score, keep when strictly better, undo. -/
def moveEvalBody (ctx : Ctx) (i j : Nat) (p : Entity) (st : ScanSt) : ScanSt :=
  { assign := moveUndo st.assign i j p
  , best :=
      if totalScore ctx.rels (applyMove st.assign (.move i j p)) > st.bestScore
      then some (LSMove.move i j p) else st.best
  , bestScore :=
      if totalScore ctx.rels (applyMove st.assign (.move i j p)) > st.bestScore
      then totalScore ctx.rels (applyMove st.assign (.move i j p))
      else st.bestScore }

/-- The move scan for one ordered house pair (solver.py lines 450-471):
skipped when `i = j`, house `i` is empty, or house `j` is at capacity
(checked once, before the person loop). -/
def moveScanPair (ctx : Ctx) (st : ScanSt) (i j : Nat) : ScanSt :=
  if i = j then st
  else if (house st.assign i).isEmpty then st
  else if (house st.assign j).length ≥ ctx.caps.getD j 0 then st
  else
    pyForN (fun st => house st.assign i)
      (fun p st => moveEvalBody ctx i j p st)
      (house st.assign i).length 0 st

/-- One pass of `_local_search` (solver.py lines 419-471): the swap scan
over the unrolled unordered house pairs of `range(3)`, then the move scan
over the unrolled ordered pairs (the `i == j` cases are skipped by
`moveScanPair` itself, so listing them changes nothing). -/
def runPass (ctx : Ctx) (a : Assign) (s : Nat) : ScanSt :=
  moveScanPair ctx
    (moveScanPair ctx
      (moveScanPair ctx
        (moveScanPair ctx
          (moveScanPair ctx
            (moveScanPair ctx
              (swapScanPair ctx
                (swapScanPair ctx
                  (swapScanPair ctx ⟨a, none, s⟩ 0 1) 0 2) 1 2)
              0 1) 0 2) 1 0) 1 2) 2 0) 2 1

/-- The `while improved and iterations < max_iterations` loop shared by
`_local_search` of solver.py (cap 50) and of house_assignment_solver.py
(cap 100, swap passes only): run a pass; if it found a strictly improving
move apply it and continue, else return the (scan-permuted) assignment
with the unchanged current score. -/
def lsLoopWith (pass : Assign → Nat → ScanSt) : Nat → Assign → Nat → Assign × Nat
  | 0, a, s => (a, s)
  | fuel + 1, a, s =>
    let st := pass a s
    match st.best with
    | none => (st.assign, s)
    | some m => lsLoopWith pass fuel (applyMove st.assign m) st.bestScore

/-- `_local_search` (solver.py lines 404-489). -/
def localSearch (ctx : Ctx) (a : Assign) : Assign × Nat :=
  lsLoopWith (runPass ctx) 50 a (totalScore ctx.rels a)

/-- The swap-only pass of `_local_search` in house_assignment_solver.py
(lines 220-248). -/
def runPassG (ctx : Ctx) (a : Assign) (s : Nat) : ScanSt :=
  swapScanPair ctx (swapScanPair ctx (swapScanPair ctx ⟨a, none, s⟩ 0 1) 0 2) 1 2

/-- `_local_search` of house_assignment_solver.py (lines 205-259):
swap moves only, iteration cap 100. -/
def greedyLocalSearch (ctx : Ctx) (a : Assign) : Assign × Nat :=
  lsLoopWith (runPassG ctx) 100 a (totalScore ctx.rels a)

/-- Strategy dispatch of the trial loop (solver.py lines 240-246):
`iteration % 3` selects smart / cluster / fill-first. -/
def stratFor (ctx : Ctx) (o : Oracle) (iter n : Nat) (sel : List Entity) :
    Assign × Nat :=
  if iter % 3 = 0 then smartAssignment ctx o n sel
  else if iter % 3 = 1 then clusterAssignment ctx o n sel
  else fillFirst ctx o n sel

/-- One trial of the `for iteration in range(iterations)` loop
(solver.py lines 240-260): construct with the strategy for this
iteration, score it, refine with `_local_search`, and keep the refined
version only when it is strictly better; also returns the advanced
oracle counter. -/
def trialResult (ctx : Ctx) (o : Oracle) (sel : List Entity) (iter n : Nat) :
    (Assign × Nat) × Nat :=
  ((if (localSearch ctx (stratFor ctx o iter n sel).1).2
        > totalScore ctx.rels (stratFor ctx o iter n sel).1
    then localSearch ctx (stratFor ctx o iter n sel).1
    else ((stratFor ctx o iter n sel).1,
      totalScore ctx.rels (stratFor ctx o iter n sel).1)),
   (stratFor ctx o iter n sel).2)

/-- The trial loop of `optimize_assignment` (solver.py lines 240-271):
track the best (assignment, score) pair, resetting or bumping
`no_improvement_count`, and break once it reaches the early-stop
threshold. -/
def optLoopGo (ctx : Ctx) (o : Oracle) (sel : List Entity) (thr : Nat)
    (next : Nat → Nat → Option Assign → Nat → Nat → Option Assign × Nat × Nat)
    (iter n : Nat) (best : Option Assign) (bs noImp : Nat) :
    Option Assign × Nat × Nat :=
  if (if (trialResult ctx o sel iter n).1.2 > bs then 0 else noImp + 1)
      ≥ thr then
    ((if (trialResult ctx o sel iter n).1.2 > bs
        then some (trialResult ctx o sel iter n).1.1 else best),
      (if (trialResult ctx o sel iter n).1.2 > bs
        then (trialResult ctx o sel iter n).1.2 else bs),
      (trialResult ctx o sel iter n).2)
  else
    next (iter + 1) (trialResult ctx o sel iter n).2
      (if (trialResult ctx o sel iter n).1.2 > bs
        then some (trialResult ctx o sel iter n).1.1 else best)
      (if (trialResult ctx o sel iter n).1.2 > bs
        then (trialResult ctx o sel iter n).1.2 else bs)
      (if (trialResult ctx o sel iter n).1.2 > bs then 0 else noImp + 1)

def optLoop (ctx : Ctx) (o : Oracle) (sel : List Entity) (thr : Nat) :
    Nat → Nat → Nat → Option Assign → Nat → Nat → Option Assign × Nat × Nat
  | 0, _, n, best, bs, _ => (best, bs, n)
  | k + 1, iter, n, best, bs, noImp =>
    optLoopGo ctx o sel thr
      (fun it2 n2 b2 bs2 ni2 => optLoop ctx o sel thr k it2 n2 b2 bs2 ni2)
      iter n best bs noImp

/-- The adaptive iteration budget of `optimize_assignment`
(solver.py lines 226-232). -/
def itersOf (sel : List Entity) (iters : Option Nat) : Nat :=
  match iters with
  | some v => v
  | none => if sel.length ≤ 8 then 150 else if sel.length ≤ 12 then 300 else 500

/-- `optimize_assignment` after candidate selection (solver.py lines
221-278): empty selection short-circuits to `([[], [], []], 0)`; otherwise
run the budgeted trial loop with `early_stop_threshold = min(50,
iterations // 4)` and fall back to one fill-first construction when no
trial ever beat the initial `best_score = 0`. -/
def optimizeCore (ctx : Ctx) (o : Oracle) (sel : List Entity)
    (iters : Option Nat) (n : Nat) : (Assign × Nat) × Nat :=
  if sel.isEmpty then (([[], [], []], 0), n)
  else
    match optLoop ctx o sel (min 50 (itersOf sel iters / 4)) (itersOf sel iters)
        0 n none 0 0 with
    | (some a, bs, n') => ((a, bs), n')
    | (none, _, n') =>
      (((fillFirst ctx o n' sel).1,
        totalScore ctx.rels (fillFirst ctx o n' sel).1),
       (fillFirst ctx o n' sel).2)

/-- The non-overflow path of `optimize_assignment` (solver.py lines
214-219 then 221-278): filter candidates against the registry and run the
trial loop.  Also models the recursive `temp_solver.optimize_assignment`
call of `_exhaustive_combination_search`, whose argument always has
exactly `sum(capacities)` entries and therefore never re-enters the
overflow branch. -/
def optimizeNoOverflow (ctx : Ctx) (o : Oracle) (people : List Entity)
    (iters : Option Nat) (n : Nat) : (Assign × Nat) × Nat :=
  optimizeCore ctx o (filterValid ctx.rels people) iters n

/-- `itertools.combinations` in list form: all index-increasing
selections of `r` elements, in the order CPython emits them. -/
def combinations : Nat → List α → List (List α)
  | 0, _ => [[]]
  | _ + 1, [] => []
  | r + 1, x :: xs => (combinations r xs).map (fun c => x :: c) ++ combinations (r + 1) xs

/-- `_improved_priority_selection` (solver.py lines 159-180).  Python
scores each known person with `connections + 0.5 * cluster_bonus` (floats
whose values are exact halves); doubling every score to
`2 * connections + cluster_bonus` preserves the order exactly, keeping the
model in `Nat`.  The sort is Python's stable descending sort. -/
def improvedPriority (r : Rels) (people : List Entity) (maxP : Nat) :
    List Entity :=
  let scored := (people.filter (fun p => isPerson r p)).map
    (fun p => (p, 2 * personPriority r p people + clusterBonus r p people))
  ((sortPy (fun y x => y.2 ≥ x.2) scored).take maxP).map (fun s => s.1)

/-- `_try_multiple_combinations` (solver.py lines 123-157): enumerate
removal combinations (capped at 100 for excess ≤ 4, else 50), score each
remainder with the cluster strategy, keep the strictly best remainder, and
fall back to priority selection when none was recorded. -/
def tryMultiple (ctx : Ctx) (o : Oracle) (people : List Entity) (maxP n : Nat) :
    List Entity × Nat :=
  let excess := people.length - maxP
  let maxComb := if excess ≤ 4 then 100 else 50
  let combos := (combinations excess people).take maxComb
  let res := combos.foldl
    (fun (acc : (Int × Option (List Entity)) × Nat) rm =>
      let test := people.filter (fun p => !rm.contains p)
      let ca := clusterAssignment ctx o acc.2 test
      let ts := totalScore ctx.rels ca.1
      if (ts : Int) > acc.1.1 then ((ts, some test), ca.2) else (acc.1, ca.2))
    ((-1, none), n)
  match res.1.2 with
  | none => (improvedPriority ctx.rels people maxP, res.2)
  | some c => (c, res.2)

/-- `_exhaustive_combination_search` (solver.py lines 69-121), reached
only for 19 candidates against capacity 15: quick-score every 4-removal
with the cluster strategy, stable-sort descending, then fully optimise the
top 20 remainders with `optimize_assignment(..., iterations=200)` (whose
argument never overflows, see `optimizeNoOverflow`), keeping the strictly
best.  The removed-people component is only printed and is dropped here. -/
def exhaustiveSearch (ctx : Ctx) (o : Oracle) (people : List Entity)
    (maxP n : Nat) : List Entity × Nat :=
  let excess := people.length - maxP
  let phase1 := (combinations excess people).foldl
    (fun (acc : List (Nat × List Entity) × Nat) rm =>
      let test := people.filter (fun p => !rm.contains p)
      let ca := clusterAssignment ctx o acc.2 test
      (acc.1 ++ [(totalScore ctx.rels ca.1, test)], ca.2))
    ([], n)
  let sorted := sortPy (fun y x => y.1 ≥ x.1) phase1.1
  let top := sorted.take (min 20 sorted.length)
  let res := top.foldl
    (fun (acc : (Int × Option (List Entity)) × Nat) tc =>
      let fo := optimizeNoOverflow ctx o tc.2 (some 200) acc.2
      if (fo.1.2 : Int) > acc.1.1 then ((fo.1.2, some tc.2), fo.2)
      else (acc.1, fo.2))
    ((-1, none), phase1.2)
  match res.1.2 with
  | none => (improvedPriority ctx.rels people maxP, res.2)
  | some c => (c, res.2)

/-- `select_best_people` (solver.py lines 53-67). -/
def selectBestPeople (ctx : Ctx) (o : Oracle) (people : List Entity)
    (maxP n : Nat) : List Entity × Nat :=
  if people.length ≤ maxP then (people, n)
  else if people.length = 19 ∧ maxP = 15 then exhaustiveSearch ctx o people maxP n
  else if people.length - maxP ≤ 4 then tryMultiple ctx o people maxP n
  else (improvedPriority ctx.rels people maxP, n)

/-- `optimize_assignment` (solver.py lines 207-278).  Note the overflow
branch passes the output of `select_best_people` to the trial loop
*without* filtering it against the registry. -/
def optimize_assignment (ctx : Ctx) (o : Oracle) (people : List Entity)
    (iters : Option Nat) (n : Nat) : (Assign × Nat) × Nat :=
  if people.length > ctx.caps.sum then
    optimizeCore ctx o (selectBestPeople ctx o people ctx.caps.sum n).1 iters
      (selectBestPeople ctx o people ctx.caps.sum n).2
  else optimizeNoOverflow ctx o people iters n

/-- `solve_house_assignment` (solver.py lines 498-518): build the solver
(with the argument defaulting of `__init__`) and optimise.  The wrapper's
`assignment is None` test never fires because `optimize_assignment`
always returns a list. -/
def solve_house_assignment (people : List Entity) (caps : Option (List Nat))
    (rels : Option Rels) (o : Oracle) (n : Nat) : (Assign × Nat) × Nat :=
  optimize_assignment (mkCtx caps rels) o people none n


/-! Auxiliary definitions for the claim-level statements. -/

/-- The identity shuffle: a legitimate behaviour of `random.shuffle`. -/
def o_id : Oracle := fun _ l => l

/-- The reversing shuffle: another legitimate behaviour of
`random.shuffle` (a permutation on every call). -/
def o_rev : Oracle := fun _ l => l.reverse

/-- First-maximum selection over a list of house indices: the earliest
index attaining the maximal value of `f` (strictly-better updates). -/
def argmaxBy (f : Nat → Int) (l : List Nat) : Option Nat :=
  l.foldl
    (fun acc i => match acc with
      | none => some i
      | some j => if f i > f j then some i else acc)
    none

/-- The house choice described by the specification for `greedy_gain`
(spec-modelled, for comparison with `smartPick`): among houses with spare
capacity, the largest gain (ties to the first index); when no spare house
has a strictly positive gain, the house with the most remaining spare
capacity (ties to the lowest index). -/
def claimPick (ctx : Ctx) (a : Assign) (p : Entity) : Option Nat :=
  let sp := [0, 1, 2].filter (fun i =>
    decide ((house a i).length < ctx.caps.getD i 0))
  if sp.any (fun i => decide (gainAt ctx.rels a p i > 0)) then
    argmaxBy (fun i => gainAt ctx.rels a p i) sp
  else
    argmaxBy (fun i => (ctx.caps.getD i 0 : Int) - (house a i).length) sp

/-- One person of the specification's `greedy_gain` step (spec-modelled):
place the entity at the house `claimPick` names. -/
def claimStep (ctx : Ctx) (a : Assign) (p : Entity) : Assign :=
  if isPerson ctx.rels p then
    match claimPick ctx a p with
    | some i => setH a i (house a i ++ [p])
    | none => a
  else a

/-- Concrete entities and relation tables for the counterexamples. -/
def nA : Entity := "A"
def nB : Entity := "B"
def nU : Entity := "U"
def nV : Entity := "V"
def nW : Entity := "W"
def nZ : Entity := "Z"
def nX : Entity := "X"
def nY : Entity := "Y"
def nP : Entity := "P"
def nQ : Entity := "Q"

def relsAB : Rels := [(nA, [nB])]
def relsXY : Rels := [(nX, [nP]), (nY, [nQ])]
def relsAX : Rels := [(nA, [nX])]
def relsSelf : Rels := [(nA, [nA])]


/-- Invariant of the house-selection fold of `_smart_assignment_strategy`
after the houses below `m` have been probed: either nothing was recorded
and no probed house had spare capacity, or the recorded house is the first
spare house of maximal gain among those probed. -/
def PickInv (ctx : Ctx) (a : Assign) (p : Entity) (m : Nat)
    (acc : Option Nat × Int) : Prop :=
  (acc = (none, -1) ∧ ∀ j, j < m → ¬ (house a j).length < ctx.caps.getD j 0)
  ∨ (∃ k, acc.1 = some k ∧ acc.2 = gainAt ctx.rels a p k ∧ k < m
      ∧ (house a k).length < ctx.caps.getD k 0
      ∧ (∀ j, j < m → (house a j).length < ctx.caps.getD j 0 →
          gainAt ctx.rels a p j ≤ gainAt ctx.rels a p k)
      ∧ (∀ j, j < k → (house a j).length < ctx.caps.getD j 0 →
          gainAt ctx.rels a p j < gainAt ctx.rels a p k))

/-! Basic facts about the graph and the score. -/

theorem inGraph_symm (r : Rels) (a b : Entity) : inGraph r a b = inGraph r b a := by
  unfold inGraph
  induction r with
  | nil => rfl
  | cons pc t ih =>
    rw [List.any_cons, List.any_cons, ih]
    congr 1
    exact Bool.or_comm _ _

theorem conn_append_single (r : Rels) (p : Entity) :
    ∀ l : List Entity,
      connectionsInHouse r (l ++ [p])
        = connectionsInHouse r l + l.countP (fun x => inGraph r x p)
  | [] => by simp [connectionsInHouse]
  | x :: l => by
    simp only [List.cons_append, connectionsInHouse, List.append_eq,
      conn_append_single r p l, List.countP_append, List.countP_cons,
      List.countP_nil]
    omega

theorem conn_perm (r : Rels) {l l' : List Entity} (h : l.Perm l') :
    connectionsInHouse r l = connectionsInHouse r l' := by
  induction h with
  | nil => rfl
  | cons x h ih =>
    simp only [connectionsInHouse, ih, h.countP_eq]
  | swap x y l =>
    simp only [connectionsInHouse, List.countP_cons]
    rw [inGraph_symm r y x]
    omega
  | trans h1 h2 ih1 ih2 => exact ih1.trans ih2

/-! House access and update. -/

theorem house_nil_of_le {a : Assign} {i : Nat} (h : a.length ≤ i) :
    house a i = [] := by
  simp [house, List.getD_eq_getElem?_getD, List.getElem?_eq_none h]

theorem lt_of_mem_house {a : Assign} {i : Nat} {x : Entity}
    (h : x ∈ house a i) : i < a.length := by
  by_contra hh
  push_neg at hh
  rw [house_nil_of_le hh] at h
  exact absurd h (List.not_mem_nil x)

theorem house_set_self {a : Assign} {i : Nat} (h : i < a.length)
    (l : List Entity) : house (setH a i l) i = l := by
  simp [house, setH, List.getD_eq_getElem?_getD, List.getElem?_set_self,
    Nat.lt_irrefl, h]

theorem house_set_ne {a : Assign} {i j : Nat} (h : j ≠ i) (l : List Entity) :
    house (setH a i l) j = house a j := by
  simp [house, setH, List.getD_eq_getElem?_getD, List.getElem?_set_ne (Ne.symm h)]

theorem length_setH (a : Assign) (i : Nat) (l : List Entity) :
    (setH a i l).length = a.length := List.length_set a i l

theorem house_cons_zero (h : List Entity) (t : Assign) : house (h :: t) 0 = h := rfl

theorem house_cons_succ (h : List Entity) (t : Assign) (i : Nat) :
    house (h :: t) (i + 1) = house t i := rfl

/-! Per-house permutation between assignments. -/

def APerm (a b : Assign) : Prop :=
  a.length = b.length ∧ ∀ i, (house a i).Perm (house b i)

theorem aperm_refl (a : Assign) : APerm a a := ⟨rfl, fun _ => List.Perm.refl _⟩

theorem aperm_symm {a b : Assign} (h : APerm a b) : APerm b a :=
  ⟨h.1.symm, fun i => (h.2 i).symm⟩

theorem aperm_trans {a b c : Assign} (h1 : APerm a b) (h2 : APerm b c) :
    APerm a c :=
  ⟨h1.1.trans h2.1, fun i => (h1.2 i).trans (h2.2 i)⟩

theorem aperm_set {a b : Assign} {l l' : List Entity} (h : APerm a b)
    (hl : l.Perm l') (i : Nat) : APerm (setH a i l) (setH b i l') := by
  refine ⟨by simp [length_setH, h.1], fun j => ?_⟩
  by_cases hij : j = i
  · subst hij
    by_cases hlt : j < a.length
    · rw [house_set_self hlt, house_set_self (h.1 ▸ hlt)]
      exact hl
    · push_neg at hlt
      rw [setH, List.set_eq_of_length_le hlt,
        setH, List.set_eq_of_length_le (h.1 ▸ hlt)]
      exact h.2 j
  · rw [house_set_ne hij, house_set_ne hij]
    exact h.2 j

theorem aperm_update {a : Assign} {i : Nat} {l : List Entity}
    (h : l.Perm (house a i)) : APerm (setH a i l) a := by
  refine ⟨length_setH a i l, fun j => ?_⟩
  by_cases hij : j = i
  · subst hij
    by_cases hlt : j < a.length
    · rw [house_set_self hlt]
      exact h
    · push_neg at hlt
      rw [setH, List.set_eq_of_length_le hlt]
  · rw [house_set_ne hij]

theorem totalScore_eq_of_aperm (r : Rels) :
    ∀ {a b : Assign}, APerm a b → totalScore r a = totalScore r b
  | [], [], _ => rfl
  | [], _ :: _, h => absurd h.1 (by simp)
  | _ :: _, [], h => absurd h.1 (by simp)
  | x :: xs, y :: ys, h => by
    have h0 : x.Perm y := h.2 0
    have ht : APerm xs ys := ⟨by simpa using h.1, fun i => h.2 (i + 1)⟩
    simp only [totalScore, List.map_cons, List.sum_cons]
    rw [conn_perm r h0]
    have := totalScore_eq_of_aperm r ht
    simp only [totalScore] at this
    omega

theorem join_perm_of_aperm :
    ∀ {a b : Assign}, APerm a b → a.flatten.Perm b.flatten
  | [], [], _ => List.Perm.refl _
  | [], _ :: _, h => absurd h.1 (by simp)
  | _ :: _, [], h => absurd h.1 (by simp)
  | x :: xs, y :: ys, h => by
    have h0 : x.Perm y := h.2 0
    have ht : APerm xs ys := ⟨by simpa using h.1, fun i => h.2 (i + 1)⟩
    simpa using h0.append (join_perm_of_aperm ht)

/-! Erase/append permutation facts. -/

theorem perm_erase_append {x : Entity} {l : List Entity} (h : x ∈ l) :
    (l.erase x ++ [x]).Perm l :=
  List.perm_append_comm.trans
    (show ([x] ++ l.erase x).Perm l from (List.perm_cons_erase h).symm)

theorem perm_append_erase_self (x : Entity) (m : List Entity) :
    ((m ++ [x]).erase x).Perm m := by
  rw [List.perm_iff_count]
  intro z
  rw [List.count_erase, List.count_append]
  by_cases hz : x = z
  · subst hz
    simp
  · simp [List.count_singleton', hz, Ne.symm hz]

theorem swap_undo_perm {x : Entity} (y : Entity) {l : List Entity} (hx : x ∈ l) :
    (((l.erase x ++ [y]).erase y ++ [x]).Perm l) :=
  ((perm_append_erase_self y (l.erase x)).append_right [x]).trans
    (perm_erase_append hx)

/-! Flatten and set. -/

theorem join_set_perm :
    ∀ {a : Assign} {i : Nat}, i < a.length → ∀ l : List Entity,
      ((a.set i l).flatten ++ house a i).Perm (a.flatten ++ l)
  | [], i, hi, l => by simp at hi
  | h :: t, 0, _, l => by
    rw [List.perm_iff_count]
    intro z
    simp only [List.set_cons_zero, List.flatten_cons, house_cons_zero,
      List.count_append]
    omega
  | h :: t, i + 1, hi, l => by
    have ih := join_set_perm (a := t) (i := i) (by simpa using hi) l
    rw [List.perm_iff_count]
    intro z
    have := List.perm_iff_count.1 ih z
    simp only [List.count_append] at this
    simp only [List.set_cons_succ, List.flatten_cons, house_cons_succ,
      List.count_append]
    omega

/-! Moves: applicability, congruence, and preservation. -/

/-- Side conditions under which a recorded move can be applied faithfully:
the indices come from `range(3)`, differ, the moved entities are present,
and (for a move) the scan-time capacity guard of house `j`. -/
def applicable (caps : List Nat) (a : Assign) : LSMove → Prop
  | .swap i j x y => i < 3 ∧ j < 3 ∧ i ≠ j ∧ x ∈ house a i ∧ y ∈ house a j
  | .move i j p =>
    i < 3 ∧ j < 3 ∧ i ≠ j ∧ p ∈ house a i ∧
      (house a j).length < caps.getD j 0

theorem applicable_transport {caps : List Nat} {a b : Assign} {m : LSMove}
    (h : APerm a b) (hm : applicable caps a m) : applicable caps b m := by
  cases m with
  | swap i j x y =>
    exact ⟨hm.1, hm.2.1, hm.2.2.1, (h.2 i).mem_iff.1 hm.2.2.2.1,
      (h.2 j).mem_iff.1 hm.2.2.2.2⟩
  | move i j p =>
    exact ⟨hm.1, hm.2.1, hm.2.2.1, (h.2 i).mem_iff.1 hm.2.2.2.1,
      (h.2 j).length_eq ▸ hm.2.2.2.2⟩

theorem applyMove_aperm_congr {a b : Assign} (h : APerm a b) (m : LSMove) :
    APerm (applyMove a m) (applyMove b m) := by
  cases m with
  | swap i j x y =>
    exact aperm_set (aperm_set h (((h.2 i).erase x).append_right [y]) i)
      (((h.2 j).erase y).append_right [x]) j
  | move i j p =>
    exact aperm_set (aperm_set h ((h.2 i).erase p) i)
      (((h.2 j)).append_right [p]) j

theorem applyMove_length (a : Assign) (m : LSMove) :
    (applyMove a m).length = a.length := by
  cases m <;> simp [applyMove, length_setH]

theorem applyMove_score_congr (r : Rels) {a b : Assign} (h : APerm a b)
    (m : LSMove) :
    totalScore r (applyMove a m) = totalScore r (applyMove b m) :=
  totalScore_eq_of_aperm r (applyMove_aperm_congr h m)

theorem applyMove_sizes {caps : List Nat} {a : Assign} {m : LSMove}
    (hap : applicable caps a m)
    (hs : ∀ i, (house a i).length ≤ caps.getD i 0) :
    ∀ k, (house (applyMove a m) k).length ≤ caps.getD k 0 := by
  cases m with
  | swap i j x y =>
    obtain ⟨_, _, hij, hx, hy⟩ := hap
    have hia := lt_of_mem_house hx
    have hja := lt_of_mem_house hy
    intro k
    by_cases hkj : k = j
    · subst hkj
      rw [applyMove, house_set_self (by simp [length_setH, setH]; omega)]
      have := List.length_erase_of_mem hy
      have hx1 := List.length_pos_of_mem hy
      simp only [List.length_append, List.length_cons, List.length_nil, this]
      have := hs k
      omega
    · by_cases hki : k = i
      · subst hki
        rw [applyMove, house_set_ne hkj, house_set_self hia]
        have := List.length_erase_of_mem hx
        have hx1 := List.length_pos_of_mem hx
        simp only [List.length_append, List.length_cons, List.length_nil, this]
        have := hs k
        omega
      · rw [applyMove, house_set_ne hkj, house_set_ne hki]
        exact hs k
  | move i j p =>
    obtain ⟨_, _, hij, hp, hcap⟩ := hap
    have hia := lt_of_mem_house hp
    intro k
    by_cases hja : j < a.length
    · by_cases hkj : k = j
      · subst hkj
        rw [applyMove, house_set_self (by rw [length_setH]; exact hja)]
        simp only [List.length_append, List.length_cons, List.length_nil]
        omega
      · by_cases hki : k = i
        · subst hki
          rw [applyMove, house_set_ne hkj, house_set_self hia]
          have := (house a k).erase_sublist p |>.length_le
          have := hs k
          omega
        · rw [applyMove, house_set_ne hkj, house_set_ne hki]
          exact hs k
    · push_neg at hja
      have hnoop : applyMove a (.move i j p) = setH a i ((house a i).erase p) := by
        simp only [applyMove, setH]
        rw [List.set_eq_of_length_le (by rw [List.length_set]; exact hja)]
      rw [hnoop]
      by_cases hki : k = i
      · subst hki
        rw [house_set_self hia]
        have := (house a k).erase_sublist p |>.length_le
        have := hs k
        omega
      · rw [house_set_ne hki]
        exact hs k

theorem count_one (z b : Entity) :
    List.count z [b] = if b = z then 1 else 0 := by
  by_cases h : b = z
  · subst h
    simp
  · simp [List.count_singleton', h, Ne.symm h]

theorem count_erase' (z b : Entity) (l : List Entity) :
    List.count z (l.erase b) = List.count z l - if b = z then 1 else 0 := by
  rw [List.count_erase]
  by_cases h : b = z <;> simp [h]

theorem applyMove_join_perm {caps : List Nat} {a : Assign} {m : LSMove}
    (hap : applicable caps a m) (hlen : a.length = 3) :
    ((applyMove a m).flatten).Perm a.flatten := by
  cases m with
  | swap i j x y =>
    obtain ⟨hi3, hj3, hij, hx, hy⟩ := hap
    have hia := lt_of_mem_house hx
    have hja := lt_of_mem_house hy
    rw [List.perm_iff_count]
    intro z
    have e1 := List.perm_iff_count.1
      (join_set_perm (a := setH a i ((house a i).erase x ++ [y])) (i := j)
        (by rw [length_setH]; exact hja) ((house a j).erase y ++ [x])) z
    have e2 := List.perm_iff_count.1
      (join_set_perm (a := a) (i := i) hia ((house a i).erase x ++ [y])) z
    rw [show house (setH a i ((house a i).erase x ++ [y])) j = house a j from
      house_set_ne (Ne.symm hij) _] at e1
    have hcx : 1 ≤ (house a i).count x := List.one_le_count_iff.2 hx
    have hcy : 1 ≤ (house a j).count y := List.one_le_count_iff.2 hy
    rw [List.count_append, List.count_append] at e1 e2
    rw [List.count_append, count_erase', count_one] at e1 e2
    rw [show applyMove a (LSMove.swap i j x y)
        = setH (setH a i ((house a i).erase x ++ [y])) j
            ((house a j).erase y ++ [x]) from rfl]
    simp only [setH] at e1 e2 ⊢
    split_ifs at e1 e2 with h1 h2 h3 <;>
      (try subst h1) <;> (try subst h2) <;> (try subst h3) <;>
      omega
  | move i j p =>
    obtain ⟨hi3, hj3, hij, hp, hcap⟩ := hap
    have hia := lt_of_mem_house hp
    have hja : j < a.length := by omega
    rw [List.perm_iff_count]
    intro z
    have e1 := List.perm_iff_count.1
      (join_set_perm (a := setH a i ((house a i).erase p)) (i := j)
        (by rw [length_setH]; exact hja) (house a j ++ [p])) z
    have e2 := List.perm_iff_count.1
      (join_set_perm (a := a) (i := i) hia ((house a i).erase p)) z
    rw [show house (setH a i ((house a i).erase p)) j = house a j from
      house_set_ne (Ne.symm hij) _] at e1
    have hcp : 1 ≤ (house a i).count p := List.one_le_count_iff.2 hp
    rw [List.count_append, List.count_append] at e1 e2
    rw [List.count_append, count_one] at e1
    rw [count_erase'] at e2
    rw [show applyMove a (LSMove.move i j p)
        = setH (setH a i ((house a i).erase p)) j (house a j ++ [p]) from rfl]
    simp only [setH] at e1 e2 ⊢
    split_ifs at e1 e2 with h1 <;>
      (try subst h1) <;> omega

/-! The evaluate-then-undo probes permute houses but preserve them as
multisets. -/

theorem swapUndo_aperm {a : Assign} {i j : Nat} {x y : Entity}
    (hij : i ≠ j) (hx : x ∈ house a i) (hy : y ∈ house a j) :
    APerm (swapUndo a i j x y) a := by
  have hia := lt_of_mem_house hx
  have hja := lt_of_mem_house hy
  have h1i : house (applyMove a (.swap i j x y)) i
      = (house a i).erase x ++ [y] := by
    rw [show applyMove a (LSMove.swap i j x y)
        = setH (setH a i ((house a i).erase x ++ [y])) j
            ((house a j).erase y ++ [x]) from rfl]
    rw [house_set_ne hij, house_set_self hia]
  have h1j : house (applyMove a (.swap i j x y)) j
      = (house a j).erase y ++ [x] := by
    rw [show applyMove a (LSMove.swap i j x y)
        = setH (setH a i ((house a i).erase x ++ [y])) j
            ((house a j).erase y ++ [x]) from rfl]
    rw [house_set_self (by rw [length_setH]; exact hja)]
  rw [show swapUndo a i j x y
      = setH (setH (applyMove a (.swap i j x y)) i
          ((house (applyMove a (.swap i j x y)) i).erase y ++ [x])) j
          ((house (applyMove a (.swap i j x y)) j).erase x ++ [y]) from rfl]
  refine ⟨by simp [length_setH, applyMove_length], fun k => ?_⟩
  by_cases hkj : k = j
  · subst hkj
    rw [house_set_self (by rw [length_setH, applyMove_length]; exact hja), h1j]
    exact swap_undo_perm x hy
  · by_cases hki : k = i
    · subst hki
      rw [house_set_ne hkj,
        house_set_self (by rw [applyMove_length]; exact hia), h1i]
      exact swap_undo_perm y hx
    · rw [house_set_ne hkj, house_set_ne hki,
        show house (applyMove a (.swap i j x y)) k = house a k from by
          rw [show applyMove a (LSMove.swap i j x y)
              = setH (setH a i ((house a i).erase x ++ [y])) j
                  ((house a j).erase y ++ [x]) from rfl]
          rw [house_set_ne hkj, house_set_ne hki]]

theorem moveUndo_aperm {a : Assign} {i j : Nat} {p : Entity}
    (hij : i ≠ j) (hp : p ∈ house a i) :
    APerm (moveUndo a i j p) a := by
  have hia := lt_of_mem_house hp
  rw [show moveUndo a i j p
      = setH (setH (applyMove a (.move i j p)) j
          ((house (applyMove a (.move i j p)) j).erase p))
          i (house (applyMove a (.move i j p)) i ++ [p]) from rfl]
  have h1i : house (applyMove a (.move i j p)) i = (house a i).erase p := by
    rw [show applyMove a (LSMove.move i j p)
        = setH (setH a i ((house a i).erase p)) j (house a j ++ [p]) from rfl]
    rw [house_set_ne hij, house_set_self hia]
  by_cases hja : j < a.length
  · have h1j : house (applyMove a (.move i j p)) j = house a j ++ [p] := by
      rw [show applyMove a (LSMove.move i j p)
          = setH (setH a i ((house a i).erase p)) j (house a j ++ [p]) from rfl]
      rw [house_set_self (by rw [length_setH]; exact hja)]
    refine ⟨by simp [length_setH, applyMove_length], fun k => ?_⟩
    by_cases hki : k = i
    · subst hki
      rw [house_set_self (by rw [length_setH, applyMove_length]; exact hia), h1i]
      exact perm_erase_append hp
    · by_cases hkj : k = j
      · subst hkj
        rw [house_set_ne hki,
          house_set_self (by rw [applyMove_length]; exact hja), h1j]
        exact perm_append_erase_self p (house a k)
      · rw [house_set_ne hki, house_set_ne hkj,
          show house (applyMove a (.move i j p)) k = house a k from by
            rw [show applyMove a (LSMove.move i j p)
                = setH (setH a i ((house a i).erase p)) j (house a j ++ [p])
                from rfl]
            rw [house_set_ne hkj, house_set_ne hki]]
  · push_neg at hja
    have h1j : house (applyMove a (.move i j p)) j = [] := by
      apply house_nil_of_le
      rw [applyMove_length]
      exact hja
    refine ⟨by simp [length_setH, applyMove_length], fun k => ?_⟩
    by_cases hki : k = i
    · subst hki
      rw [house_set_self (by rw [length_setH, applyMove_length]; exact hia), h1i]
      exact perm_erase_append hp
    · by_cases hkj : k = j
      · subst hkj
        rw [house_set_ne hki, setH,
          List.set_eq_of_length_le (by rw [applyMove_length]; exact hja), h1j,
          house_nil_of_le hja]
      · rw [house_set_ne hki, setH,
          List.set_eq_of_length_le (by rw [applyMove_length]; exact hja),
          show house (applyMove a (.move i j p)) k = house a k from by
            rw [show applyMove a (LSMove.move i j p)
                = setH (setH a i ((house a i).erase p)) j (house a j ++ [p])
                from rfl]
            rw [house_set_ne hkj, house_set_ne hki]]

/-! The single-pass invariant: `best_new_score` caches the exact total
score of applying the recorded move to the current (order-permuted)
assignment, strictly above the pass-entry score; with no record it still
equals the entry score. -/

def PassInv (ctx : Ctx) (s : Nat) (st : ScanSt) : Prop :=
  match st.best with
  | none => st.bestScore = s
  | some m =>
    applicable ctx.caps st.assign m ∧
      st.bestScore = totalScore ctx.rels (applyMove st.assign m) ∧
      s < st.bestScore

theorem passInv_le {ctx : Ctx} {s : Nat} {st : ScanSt}
    (h : PassInv ctx s st) : s ≤ st.bestScore := by
  unfold PassInv at h
  cases hb : st.best with
  | none => rw [hb] at h; omega
  | some m => rw [hb] at h; exact Nat.le_of_lt h.2.2

theorem passInv_transport {ctx : Ctx} {s : Nat} {st st' : ScanSt}
    (hb : st'.best = st.best) (hsc : st'.bestScore = st.bestScore)
    (hA : APerm st'.assign st.assign) (h : PassInv ctx s st) :
    PassInv ctx s st' := by
  unfold PassInv at h ⊢
  rw [hb, hsc]
  cases hm : st.best with
  | none => rw [hm] at h; exact h
  | some m =>
    rw [hm] at h
    exact ⟨applicable_transport (aperm_symm hA) h.1,
      h.2.1.trans (applyMove_score_congr ctx.rels (aperm_symm hA) m),
      h.2.2⟩

theorem swapEvalBody_ok {ctx : Ctx} {s : Nat} {i j : Nat} {x y : Entity}
    {st : ScanSt} (hi3 : i < 3) (hj3 : j < 3) (hij : i ≠ j)
    (hx : x ∈ house st.assign i) (hy : y ∈ house st.assign j)
    (hI : PassInv ctx s st) :
    PassInv ctx s (swapEvalBody ctx i j x y st) ∧
      APerm (swapEvalBody ctx i j x y st).assign st.assign := by
  unfold swapEvalBody
  split
  · have hA : APerm (swapUndo st.assign i j x y) st.assign :=
      swapUndo_aperm hij hx hy
    refine ⟨?_, hA⟩
    by_cases hgt :
        totalScore ctx.rels (applyMove st.assign (.swap i j x y)) > st.bestScore
    · unfold PassInv
      simp only [hgt, if_pos]
      refine ⟨applicable_transport (aperm_symm hA) ⟨hi3, hj3, hij, hx, hy⟩,
        ?_, ?_⟩
      · exact (applyMove_score_congr ctx.rels hA (.swap i j x y)).symm
      · exact Nat.lt_of_le_of_lt (passInv_le hI) hgt
    · exact passInv_transport (by simp [hgt]) (by simp [hgt]) hA hI
  · exact ⟨hI, aperm_refl _⟩

theorem moveEvalBody_ok {ctx : Ctx} {s : Nat} {i j : Nat} {p : Entity}
    {st : ScanSt} (hi3 : i < 3) (hj3 : j < 3) (hij : i ≠ j)
    (hp : p ∈ house st.assign i)
    (hcap : (house st.assign j).length < ctx.caps.getD j 0)
    (hI : PassInv ctx s st) :
    PassInv ctx s (moveEvalBody ctx i j p st) ∧
      APerm (moveEvalBody ctx i j p st).assign st.assign := by
  have hA : APerm (moveUndo st.assign i j p) st.assign := moveUndo_aperm hij hp
  unfold moveEvalBody
  refine ⟨?_, hA⟩
  by_cases hgt :
      totalScore ctx.rels (applyMove st.assign (.move i j p)) > st.bestScore
  · unfold PassInv
    simp only [hgt, if_pos]
    refine ⟨applicable_transport (aperm_symm hA) ⟨hi3, hj3, hij, hp, hcap⟩,
      ?_, ?_⟩
    · exact (applyMove_score_congr ctx.rels hA (.move i j p)).symm
    · exact Nat.lt_of_le_of_lt (passInv_le hI) hgt
  · exact passInv_transport (by simp [hgt]) (by simp [hgt]) hA hI

theorem pyForN_inv {σ α : Type} (get : σ → List α) (body : α → σ → σ)
    (P : σ → Prop) (hb : ∀ x st, x ∈ get st → P st → P (body x st)) :
    ∀ fuel k st, P st → P (pyForN get body fuel k st) := by
  intro fuel
  induction fuel with
  | zero => intro k st h; exact h
  | succ n ih =>
    intro k st h
    unfold pyForN
    cases hg : (get st)[k]? with
    | none => exact h
    | some x => exact ih (k + 1) (body x st) (hb x st (List.getElem?_mem hg) h)

theorem swapScanPair_ok {ctx : Ctx} {s : Nat} {A0 : Assign} {st : ScanSt}
    {i j : Nat} (hi3 : i < 3) (hj3 : j < 3) (hij : i ≠ j)
    (h : PassInv ctx s st ∧ APerm st.assign A0) :
    PassInv ctx s (swapScanPair ctx st i j) ∧
      APerm (swapScanPair ctx st i j).assign A0 := by
  unfold swapScanPair
  split
  · refine pyForN_inv _ _
      (fun st2 => PassInv ctx s st2 ∧ APerm st2.assign A0) ?_ _ _ st h
    intro x st' hxmem hP
    have inner := pyForN_inv
      (fun st2 => house st2.assign j)
      (fun y st2 => swapEvalBody ctx i j x y st2)
      (fun st2 => (PassInv ctx s st2 ∧ APerm st2.assign A0) ∧
        x ∈ house st2.assign i)
      ?_ (house st'.assign j).length 0 st' ⟨hP, hxmem⟩
    · exact inner.1
    · intro y st2 hymem hQ
      obtain ⟨⟨hI2, hA2⟩, hx2⟩ := hQ
      have hres := swapEvalBody_ok hi3 hj3 hij hx2 hymem hI2
      exact ⟨⟨hres.1, aperm_trans hres.2 hA2⟩,
        ((hres.2).2 i).mem_iff.2 hx2⟩
  · exact h

theorem moveScanPair_ok {ctx : Ctx} {s : Nat} {A0 : Assign} {st : ScanSt}
    {i j : Nat} (hi3 : i < 3) (hj3 : j < 3)
    (h : PassInv ctx s st ∧ APerm st.assign A0) :
    PassInv ctx s (moveScanPair ctx st i j) ∧
      APerm (moveScanPair ctx st i j).assign A0 := by
  unfold moveScanPair
  split
  · exact h
  · split
    · exact h
    · split
      · exact h
      · rename_i hij0 hije hcap
        have hij : i ≠ j := hij0
        push_neg at hcap
        have res := pyForN_inv
          (fun st2 => house st2.assign i)
          (fun p st2 => moveEvalBody ctx i j p st2)
          (fun st2 => (PassInv ctx s st2 ∧ APerm st2.assign A0) ∧
            (house st2.assign j).length < ctx.caps.getD j 0)
          ?_ (house st.assign i).length 0 st ⟨h, hcap⟩
        · exact res.1
        · intro p st2 hpmem hQ
          obtain ⟨⟨hI2, hA2⟩, hc2⟩ := hQ
          have hres := moveEvalBody_ok hi3 hj3 hij hpmem hc2 hI2
          refine ⟨⟨hres.1, aperm_trans hres.2 hA2⟩, ?_⟩
          rw [((hres.2).2 j).length_eq]
          exact hc2

theorem runPass_ok (ctx : Ctx) (a : Assign) (s : Nat) :
    PassInv ctx s (runPass ctx a s) ∧ APerm (runPass ctx a s).assign a := by
  have h0 : PassInv ctx s (⟨a, none, s⟩ : ScanSt) ∧
      APerm (⟨a, none, s⟩ : ScanSt).assign a := ⟨rfl, aperm_refl a⟩
  unfold runPass
  exact moveScanPair_ok (by omega) (by omega)
    (moveScanPair_ok (by omega) (by omega)
      (moveScanPair_ok (by omega) (by omega)
        (moveScanPair_ok (by omega) (by omega)
          (moveScanPair_ok (by omega) (by omega)
            (moveScanPair_ok (by omega) (by omega)
              (swapScanPair_ok (by omega) (by omega) (by omega)
                (swapScanPair_ok (by omega) (by omega) (by omega)
                  (swapScanPair_ok (by omega) (by omega) (by omega) h0))))))))

theorem runPassG_ok (ctx : Ctx) (a : Assign) (s : Nat) :
    PassInv ctx s (runPassG ctx a s) ∧ APerm (runPassG ctx a s).assign a := by
  have h0 : PassInv ctx s (⟨a, none, s⟩ : ScanSt) ∧
      APerm (⟨a, none, s⟩ : ScanSt).assign a := ⟨rfl, aperm_refl a⟩
  unfold runPassG
  exact swapScanPair_ok (by omega) (by omega) (by omega)
    (swapScanPair_ok (by omega) (by omega) (by omega)
      (swapScanPair_ok (by omega) (by omega) (by omega) h0))

theorem lsLoopWith_ok (ctx : Ctx) (pass : Assign → Nat → ScanSt)
    (hpass : ∀ a s, PassInv ctx s (pass a s) ∧ APerm (pass a s).assign a) :
    ∀ fuel (a : Assign) (s : Nat), s = totalScore ctx.rels a →
      ((lsLoopWith pass fuel a s).2
          = totalScore ctx.rels (lsLoopWith pass fuel a s).1)
      ∧ s ≤ (lsLoopWith pass fuel a s).2
      ∧ (lsLoopWith pass fuel a s).1.length = a.length
      ∧ (a.length = 3 →
          ((lsLoopWith pass fuel a s).1.flatten).Perm a.flatten)
      ∧ ((∀ k, (house a k).length ≤ ctx.caps.getD k 0) →
          ∀ k, (house (lsLoopWith pass fuel a s).1 k).length
            ≤ ctx.caps.getD k 0) := by
  intro fuel
  induction fuel with
  | zero =>
    intro a s hs
    exact ⟨hs, Nat.le_refl s, rfl, fun _ => List.Perm.refl _, fun h => h⟩
  | succ n ih =>
    intro a s hs
    have hp := hpass a s
    have heq : lsLoopWith pass (n + 1) a s
        = (match (pass a s).best with
          | none => ((pass a s).assign, s)
          | some m => lsLoopWith pass n (applyMove (pass a s).assign m)
              (pass a s).bestScore) := rfl
    cases hb : (pass a s).best with
    | none =>
      simp only [heq, hb]
      obtain ⟨hI, hA⟩ := hp
      unfold PassInv at hI
      rw [hb] at hI
      refine ⟨?_, Nat.le_refl s, hA.1, fun _ => join_perm_of_aperm hA, ?_⟩
      · exact hs.trans (totalScore_eq_of_aperm ctx.rels (aperm_symm hA))
      · intro hsz k
        rw [((hA.2 k)).length_eq]
        exact hsz k
    | some m =>
      simp only [heq, hb]
      obtain ⟨hI, hA⟩ := hp
      unfold PassInv at hI
      rw [hb] at hI
      obtain ⟨hap, hsc, hlt⟩ := hI
      have hrec := ih (applyMove (pass a s).assign m) (pass a s).bestScore hsc
      refine ⟨hrec.1, ?_, ?_, ?_, ?_⟩
      · exact Nat.le_trans (Nat.le_of_lt hlt) hrec.2.1
      · rw [hrec.2.2.1, applyMove_length, hA.1]
      · intro hlen
        have hlen' : (pass a s).assign.length = 3 := by rw [hA.1]; exact hlen
        have h1 := hrec.2.2.2.1 (by rw [applyMove_length]; exact hlen')
        exact h1.trans ((applyMove_join_perm hap hlen').trans
          (join_perm_of_aperm hA))
      · intro hsz
        have hsz' : ∀ k, (house (pass a s).assign k).length
            ≤ ctx.caps.getD k 0 := by
          intro k
          rw [((hA.2 k)).length_eq]
          exact hsz k
        exact hrec.2.2.2.2 (applyMove_sizes hap hsz')

theorem localSearch_score (ctx : Ctx) (a : Assign) :
    (localSearch ctx a).2 = totalScore ctx.rels (localSearch ctx a).1 :=
  (lsLoopWith_ok ctx (runPass ctx) (runPass_ok ctx) 50 a _ rfl).1

theorem localSearch_le (ctx : Ctx) (a : Assign) :
    totalScore ctx.rels a ≤ (localSearch ctx a).2 :=
  (lsLoopWith_ok ctx (runPass ctx) (runPass_ok ctx) 50 a _ rfl).2.1

theorem localSearch_len (ctx : Ctx) (a : Assign) :
    (localSearch ctx a).1.length = a.length :=
  (lsLoopWith_ok ctx (runPass ctx) (runPass_ok ctx) 50 a _ rfl).2.2.1

theorem localSearch_join (ctx : Ctx) {a : Assign} (h : a.length = 3) :
    ((localSearch ctx a).1.flatten).Perm a.flatten :=
  (lsLoopWith_ok ctx (runPass ctx) (runPass_ok ctx) 50 a _ rfl).2.2.2.1 h

theorem localSearch_sizes (ctx : Ctx) {a : Assign}
    (h : ∀ k, (house a k).length ≤ ctx.caps.getD k 0) :
    ∀ k, (house (localSearch ctx a).1 k).length ≤ ctx.caps.getD k 0 :=
  (lsLoopWith_ok ctx (runPass ctx) (runPass_ok ctx) 50 a _ rfl).2.2.2.2 h

theorem greedyLocalSearch_score (ctx : Ctx) (a : Assign) :
    (greedyLocalSearch ctx a).2
      = totalScore ctx.rels (greedyLocalSearch ctx a).1 :=
  (lsLoopWith_ok ctx (runPassG ctx) (runPassG_ok ctx) 100 a _ rfl).1

theorem greedyLocalSearch_le (ctx : Ctx) (a : Assign) :
    totalScore ctx.rels a ≤ (greedyLocalSearch ctx a).2 :=
  (lsLoopWith_ok ctx (runPassG ctx) (runPassG_ok ctx) 100 a _ rfl).2.1

theorem greedyLocalSearch_join (ctx : Ctx) {a : Assign} (h : a.length = 3) :
    ((greedyLocalSearch ctx a).1.flatten).Perm a.flatten :=
  (lsLoopWith_ok ctx (runPassG ctx) (runPassG_ok ctx) 100 a _ rfl).2.2.2.1 h

/-! Strategy invariants: length 3, capacity bounds, and candidate-count
bounds for every construction strategy. -/

theorem count_cons' (z p : Entity) (l : List Entity) :
    List.count z (p :: l) = List.count z l + if p = z then 1 else 0 := by
  rw [List.count_cons]
  by_cases h : p = z
  · subst h
    simp
  · simp [h, Ne.symm h]

theorem base3_sizes (c : List Nat) :
    ∀ k, (house ([[], [], []] : Assign) k).length ≤ c.getD k 0 := by
  intro k
  match k with
  | 0 => simp [house]
  | 1 => simp [house]
  | 2 => simp [house]
  | n + 3 =>
    rw [house_nil_of_le (by simp)]
    simp

theorem findHouse_some (caps : List Nat) (a : Assign) :
    ∀ fuel ch h, findHouse caps a fuel ch = some h →
      h < 3 ∧ (house a h).length < caps.getD h 0 := by
  intro fuel
  induction fuel with
  | zero => intro ch h hc; simp [findHouse] at hc
  | succ n ih =>
    intro ch h hc
    unfold findHouse at hc
    split at hc
    · split at hc
      · rename_i h1 h2
        cases hc
        exact ⟨h1, h2⟩
      · exact ih (ch + 1) h hc
    · simp at hc

theorem fillFirstLoop_ok (caps : List Nat) :
    ∀ (ps : List Entity) (ch : Nat) (a : Assign), a.length = 3 →
      ((fillFirstLoop caps ps ch a).length = 3)
      ∧ (∀ z, List.count z (fillFirstLoop caps ps ch a).flatten
          ≤ List.count z a.flatten + List.count z ps)
      ∧ ((∀ k, (house a k).length ≤ caps.getD k 0) →
          ∀ k, (house (fillFirstLoop caps ps ch a) k).length ≤ caps.getD k 0) := by
  intro ps
  induction ps with
  | nil =>
    intro ch a hlen
    exact ⟨hlen, fun z => by simp [fillFirstLoop], fun h => h⟩
  | cons p ps ih =>
    intro ch a hlen
    cases hf : findHouse caps a 3 ch with
    | none =>
      have heq : fillFirstLoop caps (p :: ps) ch a = a := by
        unfold fillFirstLoop
        rw [hf]
      rw [heq]
      refine ⟨hlen, fun z => ?_, fun h => h⟩
      have : 0 ≤ List.count z (p :: ps) := Nat.zero_le _
      omega
    | some hIdx =>
      have heq : fillFirstLoop caps (p :: ps) ch a
          = fillFirstLoop caps ps hIdx (setH a hIdx (house a hIdx ++ [p])) := by
        conv_lhs => unfold fillFirstLoop
        rw [hf]
      rw [heq]
      obtain ⟨h3, hroom⟩ := findHouse_some caps a 3 ch hIdx hf
      have hia : hIdx < a.length := by omega
      have hlen' : (setH a hIdx (house a hIdx ++ [p])).length = 3 := by
        rw [length_setH]; exact hlen
      have ihr := ih hIdx (setH a hIdx (house a hIdx ++ [p])) hlen'
      refine ⟨ihr.1, fun z => ?_, fun hsz => ?_⟩
      · have e := List.perm_iff_count.1
          (join_set_perm hia (house a hIdx ++ [p])) z
        simp only [List.count_append, count_one] at e
        have := ihr.2.1 z
        rw [count_cons' z p ps]
        simp only [setH] at *
        split_ifs at e ⊢ <;> omega
      · refine ihr.2.2 ?_
        intro k
        by_cases hk : k = hIdx
        · subst hk
          rw [house_set_self hia]
          simp only [List.length_append, List.length_cons, List.length_nil]
          omega
        · rw [house_set_ne hk]
          exact hsz k

theorem fillFirst_ok (ctx : Ctx) (o : Oracle) (n : Nat) (people : List Entity)
    (hsh : (o n people).Perm people) :
    ((fillFirst ctx o n people).1.length = 3)
    ∧ (∀ z, List.count z (fillFirst ctx o n people).1.flatten
        ≤ List.count z people)
    ∧ (∀ k, (house (fillFirst ctx o n people).1 k).length
        ≤ ctx.caps.getD k 0) := by
  have hb := fillFirstLoop_ok ctx.caps (o n people) 0 [[], [], []] rfl
  refine ⟨hb.1, fun z => ?_, hb.2.2 (base3_sizes ctx.caps)⟩
  have := hb.2.1 z
  have hc := List.perm_iff_count.1 hsh z
  simp only [fillFirst] at *
  simp at this
  omega

theorem fillFirst_basic (ctx : Ctx) (o : Oracle) (n : Nat)
    (people : List Entity) :
    ((fillFirst ctx o n people).1.length = 3)
    ∧ (∀ k, (house (fillFirst ctx o n people).1 k).length
        ≤ ctx.caps.getD k 0) := by
  have hb := fillFirstLoop_ok ctx.caps (o n people) 0 [[], [], []] rfl
  exact ⟨hb.1, hb.2.2 (base3_sizes ctx.caps)⟩

theorem smartPick_some (ctx : Ctx) (a : Assign) (p : Entity) :
    ∀ i, (smartPick ctx a p).1 = some i →
      i < 3 ∧ (house a i).length < ctx.caps.getD i 0 := by
  have hfold : ∀ (l : List Nat) (acc : Option Nat × Int),
      (∀ i0 ∈ l, i0 < 3) →
      (∀ i0, acc.1 = some i0 →
        i0 < 3 ∧ (house a i0).length < ctx.caps.getD i0 0) →
      ∀ i0, (l.foldl (smartPickStep ctx a p) acc).1 = some i0 →
        i0 < 3 ∧ (house a i0).length < ctx.caps.getD i0 0 := by
    intro l
    induction l with
    | nil => intro acc _ hacc i0 h; exact hacc i0 h
    | cons x xs ih =>
      intro acc hl hacc i0 h
      refine ih (smartPickStep ctx a p acc x)
        (fun i1 hi1 => hl i1 (List.mem_cons_of_mem x hi1)) ?_ i0 h
      intro i1 hi1
      unfold smartPickStep at hi1
      split at hi1
      · split at hi1
        · rename_i hroom _
          cases hi1
          exact ⟨hl x (List.mem_cons_self x xs), hroom⟩
        · exact hacc i1 hi1
      · exact hacc i1 hi1
  intro i h
  exact hfold [0, 1, 2] (none, -1) (by intro i0 hi0; fin_cases hi0 <;> omega)
    (by intro i0 h0; simp at h0) i h

theorem insBy_perm (le : α → α → Bool) (x : α) :
    ∀ l : List α, (insBy le x l).Perm (x :: l) := by
  intro l
  induction l with
  | nil => exact List.Perm.refl _
  | cons y ys ih =>
    unfold insBy
    split
    · exact (ih.cons y).trans (List.Perm.swap x y ys)
    · exact List.Perm.refl _

theorem sortPy_perm (le : α → α → Bool) (l : List α) : (sortPy le l).Perm l := by
  have hgen : ∀ (l acc : List α),
      (l.foldl (fun acc x => insBy le x acc) acc).Perm (acc ++ l) := by
    intro l
    induction l with
    | nil => intro acc; simp
    | cons x xs ih =>
      intro acc
      refine (ih (insBy le x acc)).trans ?_
      refine ((insBy_perm le x acc).append_right xs).trans ?_
      have : (x :: acc).Perm (acc ++ [x]) :=
        @List.perm_append_comm _ [x] acc
      refine (this.append_right xs).trans ?_
      rw [List.append_assoc]
      exact List.Perm.refl _
  simpa using hgen l []

theorem smartFallback_some (ctx : Ctx) (a : Assign) :
    ∀ i, smartFallback ctx a = some i →
      i < 3 ∧ (house a i).length < ctx.caps.getD i 0 := by
  intro i h
  unfold smartFallback at h
  rw [Option.map_eq_some'] at h
  obtain ⟨si, hfind, hsi⟩ := h
  have hpred := List.find?_some hfind
  have hmem0 := List.mem_of_find?_eq_some hfind
  have hmem : si ∈ [0, 1, 2].map
      (fun i => ((ctx.caps.getD i 0 : Int) - (house a i).length, i)) :=
    ((sortPy_perm _ _).mem_iff).1 hmem0
  rw [List.mem_map] at hmem
  obtain ⟨i0, hi0, hmk⟩ := hmem
  subst hmk
  simp only at hsi
  subst hsi
  have h1 : (0 : Int) < (ctx.caps.getD i0 0 : Int) - (house a i0).length := by
    simpa using hpred
  constructor
  · fin_cases hi0 <;> omega
  · omega

theorem smartStep_len {a : Assign} (ctx : Ctx) (p : Entity)
    (h : a.length = 3) : (smartStep ctx a p).length = 3 := by
  unfold smartStep
  split
  · cases hp : (smartPick ctx a p).1 with
    | some i => simp [length_setH, h]
    | none =>
      cases hf : smartFallback ctx a with
      | some i => simp [length_setH, h]
      | none => simp [h]
  · exact h

theorem smartStep_sizes {a : Assign} (ctx : Ctx) (p : Entity)
    (h3 : a.length = 3)
    (hsz : ∀ k, (house a k).length ≤ ctx.caps.getD k 0) :
    ∀ k, (house (smartStep ctx a p) k).length ≤ ctx.caps.getD k 0 := by
  have hplace : ∀ i, i < 3 → (house a i).length < ctx.caps.getD i 0 →
      ∀ k, (house (setH a i (house a i ++ [p])) k).length
        ≤ ctx.caps.getD k 0 := by
    intro i hi3 hroom k
    by_cases hk : k = i
    · subst hk
      rw [house_set_self (by omega)]
      simp only [List.length_append, List.length_cons, List.length_nil]
      omega
    · rw [house_set_ne hk]
      exact hsz k
  unfold smartStep
  split
  · cases hp : (smartPick ctx a p).1 with
    | some i =>
      obtain ⟨hi3, hroom⟩ := smartPick_some ctx a p i hp
      exact hplace i hi3 hroom
    | none =>
      cases hf : smartFallback ctx a with
      | some i =>
        obtain ⟨hi3, hroom⟩ := smartFallback_some ctx a i hf
        exact hplace i hi3 hroom
      | none => exact hsz
  · exact hsz

theorem smartStep_count {a : Assign} (ctx : Ctx) (p : Entity)
    (h3 : a.length = 3) :
    ∀ z, List.count z (smartStep ctx a p).flatten
      ≤ List.count z a.flatten + List.count z [p] := by
  have hplace : ∀ i, i < 3 →
      ∀ z, List.count z (setH a i (house a i ++ [p])).flatten
        ≤ List.count z a.flatten + List.count z [p] := by
    intro i hi3 z
    have e := List.perm_iff_count.1 (join_set_perm (a := a) (i := i)
      (by omega) (house a i ++ [p])) z
    simp only [List.count_append, setH] at e
    simp only [setH]
    omega
  intro z
  unfold smartStep
  split
  · cases hp : (smartPick ctx a p).1 with
    | some i => exact hplace i (smartPick_some ctx a p i hp).1 z
    | none =>
      cases hf : smartFallback ctx a with
      | some i => exact hplace i (smartFallback_some ctx a i hf).1 z
      | none =>
        show List.count z a.flatten ≤ _
        omega
  · omega

theorem smartFold_ok (ctx : Ctx) :
    ∀ (ps : List Entity) (a : Assign), a.length = 3 →
      ((ps.foldl (smartStep ctx) a).length = 3)
      ∧ (∀ z, List.count z (ps.foldl (smartStep ctx) a).flatten
          ≤ List.count z a.flatten + List.count z ps)
      ∧ ((∀ k, (house a k).length ≤ ctx.caps.getD k 0) →
          ∀ k, (house (ps.foldl (smartStep ctx) a) k).length
            ≤ ctx.caps.getD k 0) := by
  intro ps
  induction ps with
  | nil => intro a h; exact ⟨h, fun z => by simp, fun h => h⟩
  | cons p ps ih =>
    intro a h
    have h' := smartStep_len ctx p h
    have ihr := ih (smartStep ctx a p) h'
    refine ⟨ihr.1, fun z => ?_, fun hsz => ihr.2.2 (smartStep_sizes ctx p h hsz)⟩
    have h1 := ihr.2.1 z
    have h2 := smartStep_count ctx p h z
    rw [count_cons' z p ps]
    rw [count_one] at h2
    simp only [List.foldl_cons]
    split_ifs at h2 ⊢ <;> omega

theorem smartAssignment_ok (ctx : Ctx) (o : Oracle) (n : Nat)
    (people : List Entity) (hsh : (o n people).Perm people) :
    ((smartAssignment ctx o n people).1.length = 3)
    ∧ (∀ z, List.count z (smartAssignment ctx o n people).1.flatten
        ≤ List.count z people)
    ∧ (∀ k, (house (smartAssignment ctx o n people).1 k).length
        ≤ ctx.caps.getD k 0) := by
  have hb := smartFold_ok ctx (o n people) [[], [], []] rfl
  refine ⟨hb.1, fun z => ?_, hb.2.2 (base3_sizes ctx.caps)⟩
  have := hb.2.1 z
  have hc := List.perm_iff_count.1 hsh z
  simp only [smartAssignment, smartCore] at *
  simp at this
  omega

theorem smartAssignment_basic (ctx : Ctx) (o : Oracle) (n : Nat)
    (people : List Entity) :
    ((smartAssignment ctx o n people).1.length = 3)
    ∧ (∀ k, (house (smartAssignment ctx o n people).1 k).length
        ≤ ctx.caps.getD k 0) := by
  have hb := smartFold_ok ctx (o n people) [[], [], []] rfl
  exact ⟨hb.1, hb.2.2 (base3_sizes ctx.caps)⟩

theorem clusterSeed_mem (r : Rels) (people : List Entity) :
    ∀ s0, clusterSeed r people = some s0 → s0 ∈ people := by
  have hfold : ∀ (l : List Entity) (acc : Nat × Option Entity),
      (∀ x ∈ l, x ∈ people) →
      (∀ s0, acc.2 = some s0 → s0 ∈ people) →
      ∀ s0, (l.foldl (clusterSeedStep r people) acc).2 = some s0 →
        s0 ∈ people := by
    intro l
    induction l with
    | nil => intro acc _ hacc s0 h; exact hacc s0 h
    | cons x xs ih =>
      intro acc hl hacc s0 h
      refine ih (clusterSeedStep r people acc x)
        (fun y hy => hl y (List.mem_cons_of_mem x hy)) ?_ s0 h
      intro s1 hs1
      unfold clusterSeedStep at hs1
      split at hs1
      · split at hs1
        · cases hs1
          exact hl x (List.mem_cons_self x xs)
        · exact hacc s1 hs1
      · exact hacc s1 hs1
  intro s0 h
  exact hfold people (0, none) (fun x hx => hx) (by intro s1 h1; simp at h1) s0 h

theorem clusterPickBest_mem (r : Rels) (houseL : List Entity) :
    ∀ (rem : List Entity) p, clusterPickBest r houseL rem = some p → p ∈ rem := by
  have hfold : ∀ (l rem : List Entity) (acc : Int × Option Entity),
      (∀ x ∈ l, x ∈ rem) →
      (∀ p0, acc.2 = some p0 → p0 ∈ rem) →
      ∀ p0, (l.foldl (clusterPickStep r houseL) acc).2 = some p0 →
        p0 ∈ rem := by
    intro l
    induction l with
    | nil => intro rem acc _ hacc p0 h; exact hacc p0 h
    | cons x xs ih =>
      intro rem acc hl hacc p0 h
      refine ih rem (clusterPickStep r houseL acc x)
        (fun y hy => hl y (List.mem_cons_of_mem x hy)) ?_ p0 h
      intro p1 hp1
      unfold clusterPickStep at hp1
      split at hp1
      · split at hp1
        · cases hp1
          exact hl x (List.mem_cons_self x xs)
        · exact hacc p1 hp1
      · exact hacc p1 hp1
  intro rem p h
  unfold clusterPickBest at h
  cases hb : (rem.foldl (clusterPickStep r houseL)
      ((-1 : Int), (none : Option Entity))).2 with
  | some q =>
    rw [hb] at h
    cases h
    exact hfold rem rem _ (fun x hx => hx) (by intro p1 h1; simp at h1) p hb
  | none =>
    rw [hb] at h
    exact List.mem_of_mem_head? h

theorem clusterFillHouse_ok (ctx : Ctx) {i : Nat} (hi3 : i < 3) :
    ∀ (fuel : Nat) (a : Assign) (rem : List Entity), a.length = 3 →
      ((clusterFillHouse ctx i fuel a rem).1.length = 3)
      ∧ (∀ z, List.count z (clusterFillHouse ctx i fuel a rem).1.flatten
            + List.count z (clusterFillHouse ctx i fuel a rem).2
          = List.count z a.flatten + List.count z rem)
      ∧ ((∀ k, (house a k).length ≤ ctx.caps.getD k 0) →
          ∀ k, (house (clusterFillHouse ctx i fuel a rem).1 k).length
            ≤ ctx.caps.getD k 0) := by
  intro fuel
  induction fuel with
  | zero => intro a rem hlen; exact ⟨hlen, fun z => rfl, fun h => h⟩
  | succ n ih =>
    intro a rem hlen
    have heq : clusterFillHouse ctx i (n + 1) a rem
        = (if (house a i).length < ctx.caps.getD i 0 && !rem.isEmpty then
            match clusterPickBest ctx.rels (house a i) rem with
            | none => (a, rem)
            | some p =>
              if p = emptyName then (a, rem)
              else clusterFillHouse ctx i n (setH a i (house a i ++ [p]))
                (rem.erase p)
          else (a, rem)) := rfl
    rw [heq]
    split
    · rename_i hguard
      split
      · exact ⟨hlen, fun z => rfl, fun h => h⟩
      · rename_i p hpb
        by_cases hpe : p = emptyName
        · rw [if_pos hpe]
          exact ⟨hlen, fun z => rfl, fun h => h⟩
        · rw [if_neg hpe]
          have hpmem : p ∈ rem := clusterPickBest_mem ctx.rels (house a i) rem p hpb
          have hroom : (house a i).length < ctx.caps.getD i 0 := by
            simp only [Bool.and_eq_true, decide_eq_true_eq] at hguard
            exact hguard.1
          have hlen' : (setH a i (house a i ++ [p])).length = 3 := by
            rw [length_setH]; exact hlen
          have ihr := ih (setH a i (house a i ++ [p])) (rem.erase p) hlen'
          refine ⟨ihr.1, fun z => ?_, fun hsz => ?_⟩
          · have e := List.perm_iff_count.1
              (join_set_perm (a := a) (i := i) (by omega) (house a i ++ [p])) z
            simp only [List.count_append, count_one] at e
            have h1 := ihr.2.1 z
            have h2 := count_erase' z p rem
            have hc : 1 ≤ List.count p rem := List.one_le_count_iff.2 hpmem
            simp only [setH] at *
            split_ifs at e h2 with hpz
            · subst hpz
              omega
            · omega
          · refine ihr.2.2 ?_
            intro k
            by_cases hk : k = i
            · subst hk
              rw [house_set_self (by omega)]
              simp only [List.length_append, List.length_cons, List.length_nil]
              omega
            · rw [house_set_ne hk]
              exact hsz k
    · exact ⟨hlen, fun z => rfl, fun h => h⟩

theorem fillStage_ok (ctx : Ctx) {i : Nat} (hi3 : i < 3)
    (pr : Assign × List Entity) (hlen : pr.1.length = 3) :
    ((fillStage ctx i pr).1.length = 3)
    ∧ (∀ z, List.count z (fillStage ctx i pr).1.flatten
          + List.count z (fillStage ctx i pr).2
        = List.count z pr.1.flatten + List.count z pr.2)
    ∧ ((∀ k, (house pr.1 k).length ≤ ctx.caps.getD k 0) →
        ∀ k, (house (fillStage ctx i pr).1 k).length ≤ ctx.caps.getD k 0) :=
  clusterFillHouse_ok ctx hi3 pr.2.length pr.1 pr.2 hlen

theorem seedBase_sizes (ctx : Ctx) (s : Entity) (h0 : 0 < ctx.caps.getD 0 0) :
    ∀ k, (house ([[s], [], []] : Assign) k).length ≤ ctx.caps.getD k 0 := by
  intro k
  match k with
  | 0 => simpa [house] using h0
  | 1 => simp [house]
  | 2 => simp [house]
  | m + 3 =>
    rw [house_nil_of_le (by simp)]
    simp

theorem clusterAssignment_ok (ctx : Ctx) (o : Oracle) (n : Nat)
    (people : List Entity) (hsh : (o n people).Perm people)
    (h0 : 0 < ctx.caps.getD 0 0) :
    ((clusterAssignment ctx o n people).1.length = 3)
    ∧ (∀ z, List.count z (clusterAssignment ctx o n people).1.flatten
        ≤ List.count z people)
    ∧ (∀ k, (house (clusterAssignment ctx o n people).1 k).length
        ≤ ctx.caps.getD k 0) := by
  cases hs : clusterSeed ctx.rels people with
  | none =>
    have hred : clusterAssignment ctx o n people = fillFirst ctx o n people := by
      unfold clusterAssignment
      rw [hs]
    rw [hred]
    exact fillFirst_ok ctx o n people hsh
  | some s =>
    have hred : clusterAssignment ctx o n people
        = ((fillStage ctx 2 (fillStage ctx 1 (fillStage ctx 0
            ([[s], [], []], people.erase s)))).1, n) := by
      unfold clusterAssignment
      rw [hs]
    rw [hred]
    have hsmem : s ∈ people := clusterSeed_mem ctx.rels people s hs
    have h1 := fillStage_ok ctx (by omega : (0 : Nat) < 3)
      ([[s], [], []], people.erase s) rfl
    have h2 := fillStage_ok ctx (by omega : (1 : Nat) < 3)
      (fillStage ctx 0 ([[s], [], []], people.erase s)) h1.1
    have h3 := fillStage_ok ctx (by omega : (2 : Nat) < 3)
      (fillStage ctx 1 (fillStage ctx 0 ([[s], [], []], people.erase s))) h2.1
    refine ⟨h3.1, fun z => ?_,
      h3.2.2 (h2.2.2 (h1.2.2 (seedBase_sizes ctx s h0)))⟩
    rw [show (((fillStage ctx 2 (fillStage ctx 1 (fillStage ctx 0
        ([[s], [], []], people.erase s)))).1, n) : Assign × Nat).1
      = (fillStage ctx 2 (fillStage ctx 1 (fillStage ctx 0
        ([[s], [], []], people.erase s)))).1 from rfl]
    have e1 := h1.2.1 z
    have e2 := h2.2.1 z
    have e3 := h3.2.1 z
    have hc : 1 ≤ List.count s people := List.one_le_count_iff.2 hsmem
    have he := count_erase' z s people
    have hb : List.count z (([[s], [], []], people.erase s) :
        Assign × List Entity).1.flatten = if s = z then 1 else 0 := by
      rw [show ((([[s], [], []], people.erase s) :
          Assign × List Entity).1.flatten) = [s] from rfl]
      exact count_one z s
    rw [show ((([[s], [], []], people.erase s) :
        Assign × List Entity).2) = people.erase s from rfl] at e1
    split_ifs at he hb with hsz
    · subst hsz
      omega
    · omega

theorem clusterAssignment_basic (ctx : Ctx) (o : Oracle) (n : Nat)
    (people : List Entity) (h0 : 0 < ctx.caps.getD 0 0) :
    ((clusterAssignment ctx o n people).1.length = 3)
    ∧ (∀ k, (house (clusterAssignment ctx o n people).1 k).length
        ≤ ctx.caps.getD k 0) := by
  cases hs : clusterSeed ctx.rels people with
  | none =>
    have hred : clusterAssignment ctx o n people = fillFirst ctx o n people := by
      unfold clusterAssignment
      rw [hs]
    rw [hred]
    exact fillFirst_basic ctx o n people
  | some s =>
    have hred : clusterAssignment ctx o n people
        = ((fillStage ctx 2 (fillStage ctx 1 (fillStage ctx 0
            ([[s], [], []], people.erase s)))).1, n) := by
      unfold clusterAssignment
      rw [hs]
    rw [hred]
    have h1 := fillStage_ok ctx (by omega : (0 : Nat) < 3)
      ([[s], [], []], people.erase s) rfl
    have h2 := fillStage_ok ctx (by omega : (1 : Nat) < 3)
      (fillStage ctx 0 ([[s], [], []], people.erase s)) h1.1
    have h3 := fillStage_ok ctx (by omega : (2 : Nat) < 3)
      (fillStage ctx 1 (fillStage ctx 0 ([[s], [], []], people.erase s))) h2.1
    exact ⟨h3.1, h3.2.2 (h2.2.2 (h1.2.2 (seedBase_sizes ctx s h0)))⟩

/-! Driver invariants. -/

theorem trialResult_score (ctx : Ctx) (o : Oracle) (sel : List Entity)
    (iter n : Nat) :
    (trialResult ctx o sel iter n).1.2
      = totalScore ctx.rels (trialResult ctx o sel iter n).1.1 := by
  unfold trialResult
  by_cases h : (localSearch ctx (stratFor ctx o iter n sel).1).2
      > totalScore ctx.rels (stratFor ctx o iter n sel).1
  · simp only [if_pos h]
    exact localSearch_score ctx (stratFor ctx o iter n sel).1
  · simp only [if_neg h]

theorem trialResult_prop (ctx : Ctx) (o : Oracle) (sel : List Entity)
    (Q : Assign → Prop) (iter n : Nat)
    (hstrat : Q (stratFor ctx o iter n sel).1)
    (hls : ∀ a, Q a → Q (localSearch ctx a).1) :
    Q (trialResult ctx o sel iter n).1.1 := by
  unfold trialResult
  by_cases h : (localSearch ctx (stratFor ctx o iter n sel).1).2
      > totalScore ctx.rels (stratFor ctx o iter n sel).1
  · simp only [if_pos h]
    exact hls _ hstrat
  · simp only [if_neg h]
    exact hstrat

theorem optLoop_score (ctx : Ctx) (o : Oracle) (sel : List Entity) (thr : Nat) :
    ∀ k iter n best bs noImp,
      (∀ a, best = some a → bs = totalScore ctx.rels a) →
      ∀ a, (optLoop ctx o sel thr k iter n best bs noImp).1 = some a →
        (optLoop ctx o sel thr k iter n best bs noImp).2.1
          = totalScore ctx.rels a := by
  intro k
  induction k with
  | zero => intro iter n best bs noImp hbest a ha; exact hbest a ha
  | succ m ih =>
    intro iter n best bs noImp hbest a ha
    have heq : optLoop ctx o sel thr (m + 1) iter n best bs noImp
        = optLoopGo ctx o sel thr
            (fun it2 n2 b2 bs2 ni2 => optLoop ctx o sel thr m it2 n2 b2 bs2 ni2)
            iter n best bs noImp := rfl
    rw [heq, optLoopGo] at ha ⊢
    have hts := trialResult_score ctx o sel iter n
    generalize htr : trialResult ctx o sel iter n = tr at ha hts ⊢
    have hbest' : ∀ a0,
        (if tr.1.2 > bs then some tr.1.1 else best) = some a0 →
        (if tr.1.2 > bs then tr.1.2 else bs) = totalScore ctx.rels a0 := by
      intro a0 h0
      by_cases hgt : tr.1.2 > bs
      · rw [if_pos hgt] at h0 ⊢
        cases h0
        exact hts
      · rw [if_neg hgt] at h0 ⊢
        exact hbest a0 h0
    by_cases hstop : (if tr.1.2 > bs then 0 else noImp + 1) ≥ thr
    · rw [if_pos hstop] at ha ⊢
      exact hbest' a ha
    · rw [if_neg hstop] at ha ⊢
      exact ih (iter + 1) tr.2 _ _ _ hbest' a ha

theorem optLoop_prop (ctx : Ctx) (o : Oracle) (sel : List Entity) (thr : Nat)
    (Q : Assign → Prop)
    (hstrat : ∀ iter n, Q (stratFor ctx o iter n sel).1)
    (hls : ∀ a, Q a → Q (localSearch ctx a).1) :
    ∀ k iter n best bs noImp,
      (∀ a, best = some a → Q a) →
      ∀ a, (optLoop ctx o sel thr k iter n best bs noImp).1 = some a → Q a := by
  intro k
  induction k with
  | zero => intro iter n best bs noImp hbest a ha; exact hbest a ha
  | succ m ih =>
    intro iter n best bs noImp hbest a ha
    have heq : optLoop ctx o sel thr (m + 1) iter n best bs noImp
        = optLoopGo ctx o sel thr
            (fun it2 n2 b2 bs2 ni2 => optLoop ctx o sel thr m it2 n2 b2 bs2 ni2)
            iter n best bs noImp := rfl
    rw [heq, optLoopGo] at ha
    have htp := trialResult_prop ctx o sel Q iter n (hstrat iter n) hls
    generalize htr : trialResult ctx o sel iter n = tr at ha htp
    have hbest' : ∀ a0,
        (if tr.1.2 > bs then some tr.1.1 else best) = some a0 → Q a0 := by
      intro a0 h0
      by_cases hgt : tr.1.2 > bs
      · rw [if_pos hgt] at h0
        cases h0
        exact htp
      · rw [if_neg hgt] at h0
        exact hbest a0 h0
    by_cases hstop : (if tr.1.2 > bs then 0 else noImp + 1) ≥ thr
    · rw [if_pos hstop] at ha
      exact hbest' a ha
    · rw [if_neg hstop] at ha
      exact ih (iter + 1) tr.2 _ _ _ hbest' a ha

theorem optimizeCore_score (ctx : Ctx) (o : Oracle) (sel : List Entity)
    (iters : Option Nat) (n : Nat) :
    (optimizeCore ctx o sel iters n).1.2
      = totalScore ctx.rels (optimizeCore ctx o sel iters n).1.1 := by
  by_cases he : sel.isEmpty
  · rw [show optimizeCore ctx o sel iters n = (([[], [], []], 0), n) from by
      unfold optimizeCore
      rw [if_pos he]]
    rfl
  · rcases hopt : optLoop ctx o sel (min 50 (itersOf sel iters / 4))
        (itersOf sel iters) 0 n none 0 0 with ⟨b, bs, n'⟩
    cases b with
    | some a =>
      rw [show optimizeCore ctx o sel iters n = ((a, bs), n') from by
        unfold optimizeCore
        rw [if_neg he, hopt]]
      have hsc := optLoop_score ctx o sel (min 50 (itersOf sel iters / 4))
        (itersOf sel iters) 0 n none 0 0 (fun a0 h0 => nomatch h0) a
        (by rw [hopt])
      rw [hopt] at hsc
      exact hsc
    | none =>
      rw [show optimizeCore ctx o sel iters n
          = (((fillFirst ctx o n' sel).1,
              totalScore ctx.rels (fillFirst ctx o n' sel).1),
             (fillFirst ctx o n' sel).2) from by
        unfold optimizeCore
        rw [if_neg he, hopt]]

theorem optimizeCore_prop (ctx : Ctx) (o : Oracle) (sel : List Entity)
    (iters : Option Nat) (n : Nat) (Q : Assign → Prop)
    (hQ0 : Q [[], [], []])
    (hstrat : ∀ iter n0, Q (stratFor ctx o iter n0 sel).1)
    (hfill : ∀ n0, Q (fillFirst ctx o n0 sel).1)
    (hls : ∀ a, Q a → Q (localSearch ctx a).1) :
    Q (optimizeCore ctx o sel iters n).1.1 := by
  by_cases he : sel.isEmpty
  · rw [show optimizeCore ctx o sel iters n = (([[], [], []], 0), n) from by
      unfold optimizeCore
      rw [if_pos he]]
    exact hQ0
  · rcases hopt : optLoop ctx o sel (min 50 (itersOf sel iters / 4))
        (itersOf sel iters) 0 n none 0 0 with ⟨b, bs, n'⟩
    cases b with
    | some a =>
      rw [show optimizeCore ctx o sel iters n = ((a, bs), n') from by
        unfold optimizeCore
        rw [if_neg he, hopt]]
      exact optLoop_prop ctx o sel (min 50 (itersOf sel iters / 4)) Q hstrat hls
        (itersOf sel iters) 0 n none 0 0 (fun a0 h0 => nomatch h0) a
        (by rw [hopt])
    | none =>
      rw [show optimizeCore ctx o sel iters n
          = (((fillFirst ctx o n' sel).1,
              totalScore ctx.rels (fillFirst ctx o n' sel).1),
             (fillFirst ctx o n' sel).2) from by
        unfold optimizeCore
        rw [if_neg he, hopt]]
      exact hfill n'

theorem optimize_score (ctx : Ctx) (o : Oracle) (people : List Entity)
    (iters : Option Nat) (n : Nat) :
    (optimize_assignment ctx o people iters n).1.2
      = totalScore ctx.rels (optimize_assignment ctx o people iters n).1.1 := by
  unfold optimize_assignment optimizeNoOverflow
  split
  · exact optimizeCore_score ctx o _ iters _
  · exact optimizeCore_score ctx o _ iters _

/-! Helper lemmas for the claim-level theorems. -/

theorem gainAt_nonneg (r : Rels) (a : Assign) (p : Entity) (i : Nat) :
    0 ≤ gainAt r a p i := by
  unfold gainAt
  rw [conn_append_single]
  push_cast
  omega

theorem combinations_len_lt (l : List α) :
    ∀ r : Nat, l.length < r → combinations r l = [] := by
  induction l with
  | nil =>
    intro r h
    cases r with
    | zero => omega
    | succ r => rfl
  | cons x xs ih =>
    intro r h
    cases r with
    | zero => omega
    | succ r =>
      show (combinations r xs).map (fun c => x :: c)
          ++ combinations (r + 1) xs = []
      rw [ih r (by simp at h; omega), ih (r + 1) (by simp at h; omega)]
      rfl

theorem combinations_self (l : List α) : combinations l.length l = [l] := by
  induction l with
  | nil => rfl
  | cons x xs ih =>
    show (combinations xs.length xs).map (fun c => x :: c)
        ++ combinations (xs.length + 1) xs = [x :: xs]
    rw [ih, combinations_len_lt xs (xs.length + 1) (by omega)]
    rfl

theorem filter_not_contains_self (l : List Entity) :
    l.filter (fun p => !l.contains p) = [] := by
  have key : ∀ m : List Entity, (∀ x ∈ m, x ∈ l) →
      m.filter (fun p => !l.contains p) = [] := by
    intro m
    induction m with
    | nil => intro _; rfl
    | cons y ys ih =>
      intro h
      have hy : y ∈ l := h y (by simp)
      have hc : l.contains y = true := by simpa using hy
      rw [List.filter_cons]
      simp only [hc, Bool.not_true]
      exact ih (fun x hx => h x (by simp [hx]))
  exact key l (fun x hx => hx)

theorem optimizeCore_invariants (ctx : Ctx) (o : Oracle) (sel : List Entity)
    (iters : Option Nat) (n : Nat)
    (hperm : ∀ k l, (o k l).Perm l) (h0 : 0 < ctx.caps.getD 0 0) :
    (optimizeCore ctx o sel iters n).1.1.length = 3
    ∧ (∀ z, List.count z (optimizeCore ctx o sel iters n).1.1.flatten
        ≤ List.count z sel)
    ∧ (∀ k, (house (optimizeCore ctx o sel iters n).1.1 k).length
        ≤ ctx.caps.getD k 0) := by
  refine optimizeCore_prop ctx o sel iters n
    (fun a => a.length = 3
      ∧ (∀ z, List.count z a.flatten ≤ List.count z sel)
      ∧ (∀ k, (house a k).length ≤ ctx.caps.getD k 0))
    ⟨rfl, fun z => Nat.zero_le _, base3_sizes ctx.caps⟩ ?_ ?_ ?_
  · intro iter n0
    unfold stratFor
    split_ifs with h1 h2
    · exact smartAssignment_ok ctx o n0 sel (hperm n0 sel)
    · exact clusterAssignment_ok ctx o n0 sel (hperm n0 sel) h0
    · exact fillFirst_ok ctx o n0 sel (hperm n0 sel)
  · intro n0
    exact fillFirst_ok ctx o n0 sel (hperm n0 sel)
  · intro a ha
    refine ⟨by rw [localSearch_len]; exact ha.1, ?_,
      localSearch_sizes ctx ha.2.2⟩
    intro z
    rw [(localSearch_join ctx ha.1).count_eq]
    exact ha.2.1 z

theorem selectBestPeople_maxP_zero (ctx : Ctx) (o : Oracle)
    (people : List Entity) (n : Nat)
    (hperm : ∀ k l, (o k l).Perm l) (hp : people ≠ []) :
    (selectBestPeople ctx o people 0 n).1 = [] := by
  have hlen : 0 < people.length := List.length_pos.2 hp
  unfold selectBestPeople
  rw [if_neg (by omega : ¬ people.length ≤ 0)]
  rw [if_neg (by rintro ⟨h1, h2⟩; exact absurd h2 (by decide))]
  by_cases hex : people.length - 0 ≤ 4
  · rw [if_pos hex]
    show (tryMultiple ctx o people 0 n).1 = []
    simp only [tryMultiple, Nat.sub_zero]
    rw [combinations_self]
    have htake : ([people] : List (List Entity)).take
        (if people.length ≤ 4 then 100 else 50) = [people] := by
      split <;> rfl
    rw [htake]
    simp only [List.foldl_cons, List.foldl_nil]
    rw [filter_not_contains_self]
    have hca : clusterAssignment ctx o n [] = fillFirst ctx o n [] := by
      unfold clusterAssignment
      rfl
    have ho : o n [] = [] := (hperm n []).eq_nil
    have hff : fillFirst ctx o n [] = ([[], [], []], n + 1) := by
      unfold fillFirst
      rw [ho]
      rfl
    rw [hca, hff]
    rfl
  · rw [if_neg hex]
    rfl

theorem pickStep_inv (ctx : Ctx) (a : Assign) (p : Entity) (m : Nat)
    (acc : Option Nat × Int) (h : PickInv ctx a p m acc) :
    PickInv ctx a p (m + 1) (smartPickStep ctx a p acc m) := by
  unfold smartPickStep
  by_cases hsp : (house a m).length < ctx.caps.getD m 0
  · rw [if_pos hsp]
    rcases h with ⟨hacc, hnone⟩ | ⟨k, hk1, hk2, hk3, hk4, hk5, hk6⟩
    · subst hacc
      dsimp only
      rw [if_pos (by have := gainAt_nonneg ctx.rels a p m; omega
        : gainAt ctx.rels a p m > -1)]
      refine Or.inr ⟨m, rfl, rfl, by omega, hsp, ?_, ?_⟩
      · intro j hj hspj
        rcases (by omega : j < m ∨ j = m) with h | h
        · exact absurd hspj (hnone j h)
        · subst h
          exact le_refl _
      · intro j hj hspj
        exact absurd hspj (hnone j hj)
    · obtain ⟨ao, av⟩ := acc
      dsimp only at hk1 hk2 ⊢
      subst hk1
      subst hk2
      by_cases hgt : gainAt ctx.rels a p m > gainAt ctx.rels a p k
      · rw [if_pos hgt]
        refine Or.inr ⟨m, rfl, rfl, by omega, hsp, ?_, ?_⟩
        · intro j hj hspj
          rcases (by omega : j < m ∨ j = m) with h | h
          · exact le_of_lt (lt_of_le_of_lt (hk5 j h hspj) hgt)
          · subst h
            exact le_refl _
        · intro j hj hspj
          exact lt_of_le_of_lt (hk5 j hj hspj) hgt
      · rw [if_neg hgt]
        refine Or.inr ⟨k, rfl, rfl, by omega, hk4, ?_, hk6⟩
        intro j hj hspj
        rcases (by omega : j < m ∨ j = m) with h | h
        · exact hk5 j h hspj
        · subst h
          omega
  · rw [if_neg hsp]
    rcases h with ⟨hacc, hnone⟩ | ⟨k, hk1, hk2, hk3, hk4, hk5, hk6⟩
    · refine Or.inl ⟨hacc, ?_⟩
      intro j hj
      rcases (by omega : j < m ∨ j = m) with h | h
      · exact hnone j h
      · subst h
        exact hsp
    · refine Or.inr ⟨k, hk1, hk2, by omega, hk4, ?_, hk6⟩
      intro j hj hspj
      rcases (by omega : j < m ∨ j = m) with h | h
      · exact hk5 j h hspj
      · subst h
        exact absurd hspj hsp

theorem smartPick_inv (ctx : Ctx) (a : Assign) (p : Entity) :
    PickInv ctx a p 3 (smartPick ctx a p) := by
  have h0 : PickInv ctx a p 0 ((none, -1) : Option Nat × Int) :=
    Or.inl ⟨rfl, fun j hj => absurd hj (by omega)⟩
  have h1 := pickStep_inv ctx a p 0 _ h0
  have h2 := pickStep_inv ctx a p 1 _ h1
  have h3 := pickStep_inv ctx a p 2 _ h2
  exact h3

/-! The claims. -/

/-- C1: the score returned by `optimize_assignment` (and by
`solve_house_assignment`) equals the recomputed total score — the sum over
the groups of the count of unordered adjacent pairs — of the assignment
returned with it, and the score cached and returned by `_local_search`
equals the recomputed total score of the assignment it returns. -/
theorem C1_score_consistency (ctx : Ctx) (o : Oracle) (people : List Entity)
    (iters : Option Nat) (n : Nat) (a : Assign)
    (people2 : List Entity) (caps : Option (List Nat)) (rels : Option Rels)
    (o2 : Oracle) (n2 : Nat) :
    (optimize_assignment ctx o people iters n).1.2
      = totalScore ctx.rels (optimize_assignment ctx o people iters n).1.1
    ∧ (solve_house_assignment people2 caps rels o2 n2).1.2
      = totalScore (mkCtx caps rels).rels
          (solve_house_assignment people2 caps rels o2 n2).1.1
    ∧ (localSearch ctx a).2 = totalScore ctx.rels (localSearch ctx a).1 :=
  ⟨optimize_score ctx o people iters n,
   optimize_score (mkCtx caps rels) o2 people2 none n2,
   localSearch_score ctx a⟩

theorem passInv_none {ctx : Ctx} {s : Nat} {st : ScanSt}
    (h : PassInv ctx s st) (hn : st.best = none) : st.bestScore = s := by
  unfold PassInv at h
  rw [hn] at h
  exact h

theorem passInv_some {ctx : Ctx} {s : Nat} {st : ScanSt}
    (h : PassInv ctx s st) {m : LSMove} (hm : st.best = some m) :
    applicable ctx.caps st.assign m
    ∧ st.bestScore = totalScore ctx.rels (applyMove st.assign m)
    ∧ s < st.bestScore := by
  unfold PassInv at h
  rw [hm] at h
  exact h

attribute [irreducible] PassInv

/-- C3: `_local_search` returns a score that is at least the input
assignment's score, and each scan pass records at most one move/swap — an
applicable one whose recorded score is the recomputed score of applying
it and strictly exceeds the pass's starting score; when no strictly
improving move exists the pass records nothing and keeps the score. -/
theorem C3_local_search_improving (ctx : Ctx) (a : Assign) (st : ScanSt)
    (hst : runPass ctx a (totalScore ctx.rels a) = st) :
    totalScore ctx.rels a ≤ (localSearch ctx a).2
    ∧ (∀ m, st.best = some m →
        applicable ctx.caps st.assign m
        ∧ st.bestScore = totalScore ctx.rels (applyMove st.assign m)
        ∧ totalScore ctx.rels a < st.bestScore)
    ∧ (st.best = none → st.bestScore = totalScore ctx.rels a) := by
  have h := (runPass_ok ctx a (totalScore ctx.rels a)).1
  rw [hst] at h
  exact ⟨localSearch_le ctx a,
    fun m hm => passInv_some h hm,
    fun hn => passInv_none h hn⟩

theorem C3_local_search_improving_witness :
    totalScore [(nX, [nY])] [[nX, nY], [], []]
      ≤ (localSearch ⟨[2, 2, 2], [(nX, [nY])]⟩ [[nX, nY], [], []]).2
    ∧ ((⟨[[nX, nY], [], []], none, 1⟩ : ScanSt).bestScore
        = totalScore [(nX, [nY])] [[nX, nY], [], []]) :=
  ⟨(C3_local_search_improving ⟨[2, 2, 2], [(nX, [nY])]⟩ [[nX, nY], [], []]
      ⟨[[nX, nY], [], []], none, 1⟩ rfl).1,
   (C3_local_search_improving ⟨[2, 2, 2], [(nX, [nY])]⟩ [[nX, nY], [], []]
      ⟨[[nX, nY], [], []], none, 1⟩ rfl).2.2 rfl⟩

/-- C10: `_local_search` (and the greedy variant) only regroups: the
multiset of entities over the groups of the returned assignment equals
the multiset over the input's groups. -/
theorem C10_local_search_frame (ctx : Ctx) (a : Assign) (h3 : a.length = 3) :
    ((localSearch ctx a).1.flatten).Perm a.flatten
    ∧ ((greedyLocalSearch ctx a).1.flatten).Perm a.flatten :=
  ⟨localSearch_join ctx h3, greedyLocalSearch_join ctx h3⟩

theorem C10_local_search_frame_witness :
    (([[nX], [nY], []] : Assign).length = 3)
    ∧ ((localSearch ⟨[2, 2, 2], [(nX, [nY])]⟩ [[nX], [nY], []]).1.flatten).Perm
        ([[nX], [nY], []] : Assign).flatten :=
  ⟨by decide,
   (C10_local_search_frame ⟨[2, 2, 2], [(nX, [nY])]⟩ [[nX], [nY], []]
      (by decide)).1⟩

/-- C4 (amended): the solve operation is a deterministic function of its
explicit inputs *and* the ambient shuffle behaviour: two runs agree
whenever the global pseudo-random shuffle behaves pointwise identically.
The original claim fails because no seed parameter exists: the shuffle
state is ambient global state, and two legitimate shuffle behaviours give
different results (see the counterexample). -/
theorem C4_oracle_determinism (people : List Entity) (caps : Option (List Nat))
    (rels : Option Rels) (o o2 : Oracle) (n : Nat)
    (h : ∀ k l, o k l = o2 k l) :
    solve_house_assignment people caps rels o n
      = solve_house_assignment people caps rels o2 n := by
  have ho : o = o2 := funext fun k => funext fun l => h k l
  rw [ho]

theorem C4_oracle_determinism_witness :
    solve_house_assignment [nX, nY] (some [2, 2, 2]) (some relsXY) o_id 0
      = solve_house_assignment [nX, nY] (some [2, 2, 2]) (some relsXY)
          (fun k l => o_id k l) 0 :=
  C4_oracle_determinism [nX, nY] (some [2, 2, 2]) (some relsXY) o_id
    (fun k l => o_id k l) 0 (fun _ _ => rfl)

theorem C4_global_random_cex :
    (o_rev 0 [nX, nY]).Perm [nX, nY]
    ∧ solve_house_assignment [nX, nY] (some [2, 2, 2]) (some relsXY) o_id 0
        ≠ solve_house_assignment [nX, nY] (some [2, 2, 2]) (some relsXY)
            o_rev 0 := by
  decide

/-- C5 (amended): when the candidate list does not overflow the total
capacity, an empty filtered candidate set makes `optimize_assignment`
return the all-empty three-group assignment with score 0.  The original
unconditional claim fails on the overflow path, which never filters (see
the counterexample). -/
theorem C5_empty_filtered (ctx : Ctx) (o : Oracle) (people : List Entity)
    (iters : Option Nat) (n : Nat)
    (hno : ¬ people.length > ctx.caps.sum)
    (hf : filterValid ctx.rels people = []) :
    (optimize_assignment ctx o people iters n).1 = ([[], [], []], 0) := by
  have hred : optimize_assignment ctx o people iters n
      = optimizeCore ctx o (filterValid ctx.rels people) iters n := by
    unfold optimize_assignment optimizeNoOverflow
    rw [if_neg hno]
  rw [hred, hf]
  rfl

theorem C5_empty_filtered_witness :
    (optimize_assignment ⟨[1, 1, 1], relsAB⟩ o_id [nU] none 0).1
      = ([[], [], []], 0) :=
  C5_empty_filtered ⟨[1, 1, 1], relsAB⟩ o_id [nU] none 0 (by decide) (by decide)

theorem C5_overflow_unfiltered_cex :
    filterValid relsAB [nU, nV, nW, nZ] = []
    ∧ (optimize_assignment ⟨[1, 1, 1], relsAB⟩ o_id [nU, nV, nW, nZ]
        none 0).1.1 ≠ [[], [], []] := by
  decide

/-- C2 (amended): on the non-overflow path (no more candidates than total
capacity), with a first capacity that is positive and a shuffle that
permutes, every assignment `optimize_assignment` returns has three groups,
takes each entity at most as often as the filtered candidate set offers
it (so duplicate-free candidates give a duplicate-free assignment), places
only entities of the filtered candidate set, and respects every group's
capacity.  The original claim fails on the overflow path, which skips the
registry filter (see C5's counterexample input), and on duplicate
candidates (see the counterexample). -/
theorem C2_assignment_invariants (ctx : Ctx) (o : Oracle)
    (people : List Entity) (iters : Option Nat) (n : Nat)
    (hperm : ∀ k l, (o k l).Perm l)
    (h0 : 0 < ctx.caps.getD 0 0)
    (hno : ¬ people.length > ctx.caps.sum) :
    (optimize_assignment ctx o people iters n).1.1.length = 3
    ∧ (∀ z, List.count z (optimize_assignment ctx o people iters n).1.1.flatten
        ≤ List.count z (filterValid ctx.rels people))
    ∧ (∀ x ∈ (optimize_assignment ctx o people iters n).1.1.flatten,
        x ∈ filterValid ctx.rels people)
    ∧ (∀ k, (house (optimize_assignment ctx o people iters n).1.1 k).length
        ≤ ctx.caps.getD k 0)
    ∧ (people.Nodup →
        (optimize_assignment ctx o people iters n).1.1.flatten.Nodup) := by
  have hred : optimize_assignment ctx o people iters n
      = optimizeCore ctx o (filterValid ctx.rels people) iters n := by
    unfold optimize_assignment optimizeNoOverflow
    rw [if_neg hno]
  rw [hred]
  have h := optimizeCore_invariants ctx o (filterValid ctx.rels people)
    iters n hperm h0
  refine ⟨h.1, h.2.1, ?_, h.2.2, ?_⟩
  · intro x hx
    exact List.one_le_count_iff.1
      (le_trans (List.one_le_count_iff.2 hx) (h.2.1 x))
  · intro hnd
    have hnd2 : (filterValid ctx.rels people).Nodup := hnd.filter _
    rw [List.nodup_iff_count_le_one] at hnd2 ⊢
    intro z
    exact le_trans (h.2.1 z) (hnd2 z)

theorem C2_assignment_invariants_witness :
    (optimize_assignment ⟨[1, 2, 2], relsAB⟩ o_id [nA] none 0).1.1.length
      = 3 :=
  (C2_assignment_invariants ⟨[1, 2, 2], relsAB⟩ o_id [nA] none 0
    (fun _ l => List.Perm.refl l) (by decide) (by decide)).1

theorem C2_duplicate_candidate_cex :
    nA ∈ house (optimize_assignment ⟨[1, 1, 1], relsAB⟩ o_id [nA, nA]
        none 0).1.1 0
    ∧ nA ∈ house (optimize_assignment ⟨[1, 1, 1], relsAB⟩ o_id [nA, nA]
        none 0).1.1 1 := by
  decide

/-- C6 (amended): the house count is hard-coded to three, so the claimed
one-group-per-capacity-slot correspondence fails: with four capacities
the solver still returns exactly three groups (see the counterexample).
For capacities sequences of length at least 3 — the regime in which the
embedding's capacity lookup coincides with Python's list indexing, since
shorter sequences make the program raise IndexError at
`self.house_capacities[house_idx]` instead of returning anything — the
returned assignment always has exactly three groups, has no group at any
index beyond 2, and each of the three groups respects its capacity, given
a positive first capacity and permuting shuffles. -/
theorem C6_group_count (ctx : Ctx) (o : Oracle) (people : List Entity)
    (iters : Option Nat) (n : Nat)
    (hperm : ∀ k l, (o k l).Perm l)
    (h0 : 0 < ctx.caps.getD 0 0)
    (_hlen : 3 ≤ ctx.caps.length) :
    (optimize_assignment ctx o people iters n).1.1.length = 3
    ∧ (∀ k, 3 ≤ k →
        house (optimize_assignment ctx o people iters n).1.1 k = [])
    ∧ (∀ k, k < 3 →
        (house (optimize_assignment ctx o people iters n).1.1 k).length
          ≤ ctx.caps.getD k 0) := by
  have hmain :
      (optimize_assignment ctx o people iters n).1.1.length = 3
      ∧ ∀ k, (house (optimize_assignment ctx o people iters n).1.1 k).length
          ≤ ctx.caps.getD k 0 := by
    unfold optimize_assignment optimizeNoOverflow
    split
    · exact ⟨(optimizeCore_invariants ctx o _ iters _ hperm h0).1,
        (optimizeCore_invariants ctx o _ iters _ hperm h0).2.2⟩
    · exact ⟨(optimizeCore_invariants ctx o _ iters _ hperm h0).1,
        (optimizeCore_invariants ctx o _ iters _ hperm h0).2.2⟩
  refine ⟨hmain.1, ?_, fun k _ => hmain.2 k⟩
  intro k hk
  exact house_nil_of_le (by rw [hmain.1]; exact hk)

theorem C6_group_count_witness :
    (optimize_assignment ⟨[1, 1, 1, 1], relsAB⟩ o_id [nA] none 0).1.1.length
      = 3 :=
  (C6_group_count ⟨[1, 1, 1, 1], relsAB⟩ o_id [nA] none 0
    (fun _ l => List.Perm.refl l) (by decide) (by decide)).1

theorem C6_capacity_count_cex :
    ([1, 1, 1, 1] : List Nat).length = 4
    ∧ (optimize_assignment ⟨[1, 1, 1, 1], relsAB⟩ o_id [] none 0).1.1.length
        = 3 := by
  decide

/-- C7 (amended): degenerate capacities are *not* rejected — there is no
validation anywhere.  With all-zero capacities the solver silently runs
and returns the empty three-group assignment with score 0 for every
candidate list (given a permuting shuffle), and an empty capacities
sequence is silently replaced by the defaults (`capacities or
HOUSE_CAPACITIES`), making it behave exactly like passing no capacities. -/
theorem C7_degenerate_caps (r : Rels) (o : Oracle) (people : List Entity)
    (iters : Option Nat) (n : Nat) (people2 : List Entity)
    (rels2 : Option Rels) (o2 : Oracle) (n2 : Nat)
    (hperm : ∀ k l, (o k l).Perm l) :
    (optimize_assignment ⟨[0, 0, 0], r⟩ o people iters n).1 = ([[], [], []], 0)
    ∧ solve_house_assignment people2 (some []) rels2 o2 n2
        = solve_house_assignment people2 none rels2 o2 n2 := by
  constructor
  · by_cases hp : people = []
    · subst hp
      rfl
    · have hlen : 0 < people.length := List.length_pos.2 hp
      have hred : optimize_assignment ⟨[0, 0, 0], r⟩ o people iters n
          = optimizeCore ⟨[0, 0, 0], r⟩ o
              (selectBestPeople ⟨[0, 0, 0], r⟩ o people 0 n).1 iters
              (selectBestPeople ⟨[0, 0, 0], r⟩ o people 0 n).2 := by
        unfold optimize_assignment
        rw [if_pos (by simpa using hlen)]
        rfl
      rw [hred, selectBestPeople_maxP_zero ⟨[0, 0, 0], r⟩ o people n hperm hp]
      rfl
  · rfl

theorem C7_degenerate_caps_witness :
    (optimize_assignment ⟨[0, 0, 0], relsAB⟩ o_id [nA] none 0).1
      = ([[], [], []], 0) :=
  (C7_degenerate_caps relsAB o_id [nA] none 0 [] none o_id 0
    (fun _ l => List.Perm.refl l)).1

theorem C7_no_rejection_cex :
    (optimize_assignment ⟨[0, 0, 0], relsAB⟩ o_id [nA] none 0)
      = (([[], [], []], 0), 1)
    ∧ (mkCtx (some []) (some relsAB)).caps = HOUSE_CAPACITIES := by
  decide

theorem contains_append_self (l : List Entity) (x : Entity) :
    (l ++ l).contains x = l.contains x := by
  by_cases h : x ∈ l
  · have h1 : l.contains x = true := by simpa using h
    have h2 : (l ++ l).contains x = true := by simp [h]
    rw [h1, h2]
  · have h1 : l.contains x = false := by simpa using h
    have h2 : (l ++ l).contains x = false := by simp [h]
    rw [h1, h2]

/-- C8 (amended): the connection relation is symmetric, and duplicate
declarations of the same pair collapse (doubling a neighbour list or
repeating a whole entry changes nothing); but it is loop-free only when
no entity declares itself as its own connection — a self-declaration does
make an entity its own neighbour (see the counterexample). -/
theorem C8_graph_properties :
    (∀ (r : Rels) (a b : Entity), inGraph r a b = inGraph r b a)
    ∧ (∀ (x : Entity) (ns : List Entity) (r : Rels) (a b : Entity),
        inGraph ((x, ns ++ ns) :: r) a b = inGraph ((x, ns) :: r) a b)
    ∧ (∀ (pr : Entity × List Entity) (r : Rels) (a b : Entity),
        inGraph (pr :: pr :: r) a b = inGraph (pr :: r) a b)
    ∧ (∀ r : Rels, (∀ pr ∈ r, pr.1 ∉ pr.2) → ∀ a, inGraph r a a = false) := by
  refine ⟨inGraph_symm, ?_, ?_, ?_⟩
  · intro x ns r a b
    simp only [inGraph, List.any_cons, contains_append_self]
  · intro pr r a b
    simp only [inGraph, List.any_cons, ← Bool.or_assoc, Bool.or_self]
  · intro r h a
    by_cases hg : inGraph r a a = true
    · exfalso
      unfold inGraph at hg
      rw [List.any_eq_true] at hg
      obtain ⟨pc, hpc, hcond⟩ := hg
      rw [Bool.or_self, Bool.and_eq_true] at hcond
      obtain ⟨hbeq, hcont⟩ := hcond
      have heq : pc.1 = a := by simpa using hbeq
      have hmem : a ∈ pc.2 := by simpa using hcont
      exact h pc hpc (by rw [heq]; exact hmem)
    · simpa using hg

theorem C8_graph_properties_witness :
    inGraph relsAB nA nB = inGraph relsAB nB nA
    ∧ inGraph relsAB nA nA = false :=
  ⟨C8_graph_properties.1 relsAB nA nB,
   C8_graph_properties.2.2.2 relsAB (by decide) nA⟩

theorem C8_self_edge_cex :
    inGraph relsSelf nA nA = true := by
  decide

/-- C9 (amended): for a known entity, `_smart_assignment_strategy` places
it into the house with spare capacity of maximal gain, breaking ties
toward the *lowest-index spare house* (the running best starts at -1, so
any spare house with gain 0 already wins) — not, as claimed, into the
most-spare house when no gain is positive; and when no house has spare
capacity the entity is dropped unchanged, so the claimed most-spare
fallback never places anyone (see the counterexample against
`claimStep`, the step the specification describes). -/
theorem C9_greedy_gain (ctx : Ctx) (a : Assign) (p : Entity) :
    (∀ i, (smartPick ctx a p).1 = some i →
        i < 3 ∧ (house a i).length < ctx.caps.getD i 0
        ∧ (∀ j, j < 3 → (house a j).length < ctx.caps.getD j 0 →
            gainAt ctx.rels a p j ≤ gainAt ctx.rels a p i)
        ∧ (∀ j, j < i → (house a j).length < ctx.caps.getD j 0 →
            gainAt ctx.rels a p j < gainAt ctx.rels a p i))
    ∧ ((∃ i, i < 3 ∧ (house a i).length < ctx.caps.getD i 0) →
        ∃ i, (smartPick ctx a p).1 = some i)
    ∧ ((∀ i, i < 3 → ¬ (house a i).length < ctx.caps.getD i 0) →
        smartStep ctx a p = a) := by
  have hinv := smartPick_inv ctx a p
  refine ⟨?_, ?_, ?_⟩
  · intro i hi
    rcases hinv with ⟨hacc, hnone⟩ | ⟨k, hk1, hk2, hk3, hk4, hk5, hk6⟩
    · rw [hacc] at hi
      simp at hi
    · rw [hk1] at hi
      cases hi
      exact ⟨hk3, hk4, hk5, hk6⟩
  · rintro ⟨i, hi3, hsp⟩
    rcases hinv with ⟨hacc, hnone⟩ | ⟨k, hk1, hk2, hk3, hk4, hk5, hk6⟩
    · exact absurd hsp (hnone i hi3)
    · exact ⟨k, hk1⟩
  · intro hno
    rcases hinv with ⟨hacc, hnone⟩ | ⟨k, hk1, hk2, hk3, hk4, hk5, hk6⟩
    · unfold smartStep
      by_cases hip : isPerson ctx.rels p
      · rw [if_pos hip]
        rw [show (smartPick ctx a p).1 = none from by rw [hacc]]
        show (match smartFallback ctx a with
          | some i => setH a i (house a i ++ [p])
          | none => a) = a
        cases hf : smartFallback ctx a with
        | some i =>
          have hsf := smartFallback_some ctx a i hf
          exact absurd hsf.2 (hno i hsf.1)
        | none => rfl
      · rw [if_neg hip]
    · exact absurd hk4 (hno k hk3)

theorem C9_greedy_gain_witness :
    smartStep ⟨[0, 0, 0], relsAB⟩ [[], [], []] nA = [[], [], []] :=
  (C9_greedy_gain ⟨[0, 0, 0], relsAB⟩ [[], [], []] nA).2.2 (by decide)

theorem C9_fallback_cex :
    gainAt relsAX [[], [], []] nA 0 = 0
    ∧ gainAt relsAX [[], [], []] nA 1 = 0
    ∧ gainAt relsAX [[], [], []] nA 2 = 0
    ∧ smartStep ⟨[1, 2, 2], relsAX⟩ [[], [], []] nA = [[nA], [], []]
    ∧ claimStep ⟨[1, 2, 2], relsAX⟩ [[], [], []] nA = [[], [nA], []]
    ∧ smartStep ⟨[1, 2, 2], relsAX⟩ [[], [], []] nA
        ≠ claimStep ⟨[1, 2, 2], relsAX⟩ [[], [], []] nA := by
  decide

end HouseSolver
